import Mathlib

/-!
Verification of the terminology-controlled translation core of tc-translate
(`tc_translate/terminology_manager.py`), shallowly embedded in Lean 4.

Texts are modelled as `List Char`.  Python's `re` substitution with the
pattern `\b<escaped term>\b` under `re.IGNORECASE` is modelled by a
left-to-right scan that, at each position of the original text, attempts a
case-insensitive literal match of the term guarded by word-boundary checks
on the neighbouring original characters (ASCII `\w` = letter, digit or
underscore), consuming matches non-overlappingly exactly as `re.sub` does.
-/

set_option maxHeartbeats 1000000

namespace TcTranslate

/-- ASCII word character, as in the regex class \w used by \b. -/
def isWordChar (c : Char) : Bool := c.isAlpha || c.isDigit || c == '_'

/-- Word-character status of the last character of l, or the default pw
when l is empty. -/
def wordAfter (pw : Bool) (l : List Char) : Bool := l.foldl (fun _ c => isWordChar c) pw

/-- Word-character status of the first character of l (false when empty,
matching the \b treatment of out-of-text positions). -/
def headWord : List Char → Bool
  | [] => false
  | c :: _ => isWordChar c

/-- Case-insensitive prefix split: if term matches a prefix of text up to
lower-casing, return the matched original characters and the remainder. -/
def ciSplit : List Char → List Char → Option (List Char × List Char)
  | [], text => some ([], text)
  | _ :: _, [] => none
  | p :: ps, c :: cs =>
    if p.toLower == c.toLower then
      match ciSplit ps cs with
      | some pr => some (c :: pr.1, pr.2)
      | none => none
    else none

/-- One attempt of the pattern \b<term>\b (IGNORECASE) at the current
position.  pw is the word-character status of the previous original
character (false at the start of the text).  A \b assertion holds when the
word-character statuses on its two sides differ. -/
def matchAt (term : List Char) (pw : Bool) (text : List Char) : Option (List Char × List Char) :=
  match ciSplit term text with
  | none => none
  | some ([], rest) => if pw != headWord rest then some ([], rest) else none
  | some (c :: m, rest) =>
    if (pw != isWordChar c) && (wordAfter true (c :: m) != headWord rest) then
      some (c :: m, rest)
    else none

/-- The scan behind `pattern.sub`: walk the text left to right, replacing
each leftmost non-overlapping match of \b<term>\b by repl and recording the
position (in the original text) of every match.  Word boundaries are always
evaluated against original characters, as `re.sub` does.  fuel bounds the
recursion; `text.length + 1` always suffices. -/
def subScan (term repl : List Char) : Nat → Bool → List Char → Nat → List Char × List Nat
  | 0, _, _, _ => ([], [])
  | _ + 1, pw, [], pos =>
    if term.isEmpty && pw then (repl, [pos]) else ([], [])
  | fuel + 1, pw, c :: cs, pos =>
    match matchAt term pw (c :: cs) with
    | some ([], _) =>
      let r := subScan term repl fuel (isWordChar c) cs (pos + 1)
      (repl ++ c :: r.1, pos :: r.2)
    | some (m, rest) =>
      let r := subScan term repl fuel (wordAfter true m) rest (pos + m.length)
      (repl ++ r.1, pos :: r.2)
    | none =>
      let r := subScan term repl fuel (isWordChar c) cs (pos + 1)
      (c :: r.1, r.2)

/-- `re.sub` for the pattern \b<term>\b (IGNORECASE) on text, returning the
rewritten text together with the list of match positions. -/
def subTerm (term repl text : List Char) : List Char × List Nat :=
  subScan term repl (text.length + 1) false text 0

/-- Decimal digit character for n < 10. -/
def digitChar (n : Nat) : Char := Char.ofNat (48 + n)

/-- Decimal representation of a natural number (fuelled; n + 1 suffices). -/
def natStrAux : Nat → Nat → List Char
  | 0, _ => []
  | fuel + 1, n => if n < 10 then [digitChar n] else natStrAux fuel (n / 10) ++ [digitChar (n % 10)]

/-- Decimal representation of a natural number, as Python's str. -/
def natStr (n : Nat) : List Char := natStrAux (n + 1) n

/-- Decimal representation of an integer, as Python's str. -/
def intStr : Int → List Char
  | .ofNat n => natStr n
  | .negSucc n => '-' :: natStr (n + 1)

/-- The placeholder f"<{id}>" for a term id. -/
def placeholder (i : Int) : List Char := '<' :: intStr i ++ ['>']

/-- A loaded terminology entry (`Term` dataclass). -/
structure Term where
  id : Int
  term : List Char
  translation : List Char
  domain : String
  language : String
  google_lang_code : String
deriving DecidableEq, Repr

instance : Inhabited Term := ⟨⟨0, [], [], "", "", ""⟩⟩

/-- Python dict insertion: an existing key keeps its position and gets the
new value; a new key is appended. -/
def dictInsert {α β : Type} [DecidableEq α] (k : α) (v : β) : List (α × β) → List (α × β)
  | [] => [(k, v)]
  | (k', v') :: rest => if k' = k then (k', v) :: rest else (k', v') :: dictInsert k v rest

/-- One (domain, language) bucket: a dict from lowercased, trimmed term
text to the loaded Term. -/
abbrev Bucket : Type := List (List Char × Term)

/-- The terminology index terms_by_domain_lang: a dict from
(domain, language) to its bucket.  domains_languages always holds exactly
the keys of this dict, so the store is the index alone. -/
abbrev Store : Type := List ((String × String) × Bucket)

/-- Modelled from the spec: the Language Code Normalizer's normalize
(source file language_codes.py is not under src/).  "if code already
matches the 2-letter form, return it unchanged; if it matches a known
3-letter form, return its mapped 2-letter equivalent; otherwise return the
input unchanged."  The static 3-letter to 2-letter table is a parameter. -/
def convert_lang_code (mapping : List (String × String)) (code : String) : String :=
  if code.length = 2 then code
  else
    match List.lookup code mapping with
    | some g => g
    | none => code

/-- Python str.lower on a text. -/
def lowerStr (l : List Char) : List Char := l.map Char.toLower

/-- Python str.strip: drop whitespace at both ends. -/
def stripStr (l : List Char) : List Char :=
  ((l.dropWhile Char.isWhitespace).reverse.dropWhile Char.isWhitespace).reverse

/-- One CSV row as pandas yields it: a field is none when the cell is
missing (pandas NaN). -/
structure Row where
  id : Option Int
  term : Option String
  translation : Option String

/-- Python str applied to a cell: a missing cell is the float nan, whose
str is the literal "nan". -/
def strOfCell : Option String → List Char
  | some s => s.data
  | none => "nan".data

/-- Errors of the load step. -/
inductive LoadError
  | dirNotFound
  | idConversion
deriving DecidableEq, Repr

/-- The bucket key of one row: str(row['term']).lower().strip(). -/
def rowKey (r : Row) : List Char := stripStr (lowerStr (strOfCell r.term))

/-- Build the Term of one row: int(row['id']) fails on a missing id
(int of NaN raises, an error that carries neither the source file nor the
row); term is str(...).lower().strip(); translation is str(...)
verbatim. -/
def rowTerm (domain language google : String) (r : Row) : Except LoadError Term :=
  match r.id with
  | none => .error .idConversion
  | some i =>
    .ok { id := i, term := rowKey r,
          translation := strOfCell r.translation,
          domain := domain, language := language, google_lang_code := google }

/-- The per-file loop of _load_terminologies: build terms_dict keyed by the
lowercased, trimmed term text, later rows overwriting earlier ones. -/
def loadRows (domain language google : String) : List Row → Bucket → Except LoadError Bucket
  | [], acc => .ok acc
  | r :: rs, acc =>
    match rowTerm domain language google r with
    | .error e => .error e
    | .ok t => loadRows domain language google rs (dictInsert t.term t acc)

/-- One terminology source file, already split into the (domain, language)
its name encodes plus its parsed rows. -/
structure TermFile where
  domain : String
  language : String
  rows : List Row

/-- _load_terminologies: fail when the terminologies directory does not
exist, else load every source file into the index. -/
def loadTerminologies (mapping : List (String × String)) (dirExists : Bool)
    (files : List TermFile) : Except LoadError Store :=
  if !dirExists then .error .dirNotFound
  else
    files.foldlM
      (fun (s : Store) f => do
        let google := convert_lang_code mapping f.language
        let bucket ← loadRows f.domain f.language google f.rows []
        pure (dictInsert (f.domain, f.language) bucket s))
      ([] : Store)

/-- get_domains: sorted set of the domains of the loaded pairs. -/
def getDomains (s : Store) : List String :=
  ((s.map (fun p => p.1.1)).dedup).mergeSort (fun a b => a ≤ b)

/-- The languages loaded for a domain, as listed in the
NoTerminologyForLanguage diagnostic. -/
def langsFor (s : Store) (domain : String) : List String :=
  (s.filter (fun p => p.1.1 = domain)).map (fun p => p.1.2)

/-- get_terms_for_domain_lang: exact (domain, language) lookup, then the
2-letter scan, then the 3-letter scan, else the empty dict. -/
def get_terms_for_domain_lang (mapping : List (String × String)) (s : Store)
    (domain language : String) : Bucket :=
  match List.lookup (domain, language) s with
  | some b => b
  | none =>
    match (if language.length = 2 then
             s.findSome? (fun p =>
               if p.1.1 = domain ∧ convert_lang_code mapping p.1.2 = language
               then some p.2 else none)
           else none) with
    | some b => b
    | none =>
      match (if language.length = 3 then
               s.findSome? (fun p =>
                 if p.1.1 = domain ∧
                    convert_lang_code mapping p.1.2 = convert_lang_code mapping language
                 then some p.2 else none)
             else none) with
      | some b => b
      | none => []

/-- Errors of preprocess_text (both are ValueError in the source; the
constructors carry the data the messages interpolate). -/
inductive PreprocessError
  | unknownDomain (availableDomains : List String)
  | noTerminologyForLanguage (domain language : String) (availableLangs : List String)
deriving DecidableEq, Repr

/-- sorted(terms, key=len(term), reverse=True): stable sort, longest term
text first.  A stable sort's output is uniquely determined by the
comparator and the input order, so the stable insertionSort is the same
function as Python's stable sorted. -/
def sortTermsDesc (ts : List Term) : List Term :=
  ts.insertionSort (fun a b => b.term.length ≤ a.term.length)

/-- The replacement map: a dict from placeholder text to Term, written once
per match as the matches occur. -/
abbrev RepMap : Type := List (List Char × Term)

/-- One term's round in preprocess_text: substitute the term's pattern in
the running text, and write the placeholder-to-term entry once per match. -/
def preprocessStep (acc : List Char × RepMap) (t : Term) : List Char × RepMap :=
  let r := subTerm t.term (placeholder t.id) acc.1
  (r.1, r.2.foldl (fun m _ => dictInsert (placeholder t.id) t m) acc.2)

/-- preprocess_text: resolve the term set, fail with the precise diagnostic
when it is empty, else substitute terms longest first. -/
def preprocess_text (mapping : List (String × String)) (s : Store)
    (text : List Char) (domain language : String) :
    Except PreprocessError (List Char × RepMap) :=
  let terms_dict := get_terms_for_domain_lang mapping s domain language
  if terms_dict.isEmpty then
    if domain ∈ getDomains s then
      .error (.noTerminologyForLanguage domain language (langsFor s domain))
    else
      .error (.unknownDomain (getDomains s))
  else
    .ok ((sortTermsDesc (terms_dict.map (fun p => p.2))).foldl preprocessStep (text, []))

/-- Python str.replace for a non-empty pattern: replace every
non-overlapping literal occurrence, left to right (fuelled;
text.length + 1 suffices). -/
def replaceScan (pat repl : List Char) : Nat → List Char → List Char
  | 0, _ => []
  | _ + 1, [] => []
  | fuel + 1, c :: cs =>
    if pat.isPrefixOf (c :: cs) then repl ++ replaceScan pat repl fuel ((c :: cs).drop pat.length)
    else c :: replaceScan pat repl fuel cs

/-- Python str.replace: with an empty pattern the replacement is inserted
at every position; otherwise scan for literal occurrences. -/
def replaceAll (pat repl text : List Char) : List Char :=
  match pat with
  | [] => text.foldr (fun c acc => repl ++ c :: acc) repl
  | _ :: _ => replaceScan pat repl (text.length + 1) text

/-- postprocess_text: replace each placeholder of the map by its Term's
translation, in map insertion order. -/
def postprocess_text (text : List Char) (reps : RepMap) : List Char :=
  reps.foldl (fun txt p => replaceAll p.1 p.2.translation txt) text

instance {ε α : Type} [DecidableEq ε] [DecidableEq α] : DecidableEq (Except ε α) := fun a b =>
  match a, b with
  | .error e, .error f =>
    if h : e = f then .isTrue (by rw [h]) else .isFalse (by intro hc; cases hc; exact h rfl)
  | .error _, .ok _ => .isFalse (by intro hc; cases hc)
  | .ok _, .error _ => .isFalse (by intro hc; cases hc)
  | .ok x, .ok y =>
    if h : x = y then .isTrue (by rw [h]) else .isFalse (by intro hc; cases hc; exact h rfl)

/-! ## General lemmas about the dict model and the store accessors -/

theorem lookup_dictInsert {α β : Type} [DecidableEq α] [BEq α] [LawfulBEq α]
    (k k' : α) (v : β) (m : List (α × β)) :
    List.lookup k (dictInsert k' v m) = if k = k' then some v else List.lookup k m := by
  induction m with
  | nil =>
    by_cases h : k = k'
    · subst h
      simp [dictInsert, List.lookup]
    · simp [dictInsert, List.lookup, h, beq_eq_false_iff_ne.2 h]
  | cons p rest ih =>
    obtain ⟨a, b⟩ := p
    by_cases ha : a = k'
    · subst ha
      by_cases h : k = a
      · subst h
        simp [dictInsert, List.lookup]
      · simp [dictInsert, List.lookup, h, beq_eq_false_iff_ne.2 h]
    · rw [show dictInsert k' v ((a, b) :: rest) = (a, b) :: dictInsert k' v rest from by
        simp [dictInsert, ha]]
      by_cases h : k = a
      · subst h
        have hk' : ¬k = k' := fun hc => ha (by rw [← hc])
        simp [List.lookup, hk']
      · simp [List.lookup, beq_eq_false_iff_ne.2 h, ih]

theorem mem_keys_dictInsert {α β : Type} [DecidableEq α]
    (a k : α) (v : β) (m : List (α × β)) :
    a ∈ (dictInsert k v m).map Prod.fst ↔ a = k ∨ a ∈ m.map Prod.fst := by
  induction m with
  | nil => simp [dictInsert]
  | cons p rest ih =>
    obtain ⟨x, y⟩ := p
    by_cases hx : x = k
    · subst hx
      rw [show dictInsert x v ((x, y) :: rest) = (x, v) :: rest from by simp [dictInsert]]
      simp only [List.map_cons, List.mem_cons]
      tauto
    · rw [show dictInsert k v ((x, y) :: rest) = (x, y) :: dictInsert k v rest from by
        simp [dictInsert, hx]]
      simp only [List.map_cons, List.mem_cons]
      rw [ih]
      tauto

theorem nodup_keys_dictInsert {α β : Type} [DecidableEq α]
    (k : α) (v : β) (m : List (α × β)) (h : (m.map Prod.fst).Nodup) :
    ((dictInsert k v m).map Prod.fst).Nodup := by
  induction m with
  | nil => simp [dictInsert]
  | cons p rest ih =>
    obtain ⟨x, y⟩ := p
    simp only [List.map_cons, List.nodup_cons] at h
    by_cases hx : x = k
    · subst hx
      simp [dictInsert, h]
    · simp only [dictInsert, if_neg hx, List.map_cons, List.nodup_cons]
      refine ⟨fun hc => ?_, ih h.2⟩
      rcases (mem_keys_dictInsert x k v rest).1 hc with h1 | h1
      · exact hx h1
      · exact h.1 h1

theorem mem_getDomains (s : Store) (d : String) :
    d ∈ getDomains s ↔ ∃ p, p ∈ s ∧ p.1.1 = d := by
  unfold getDomains
  rw [List.mem_mergeSort, List.mem_dedup, List.mem_map]

theorem mem_langsFor (s : Store) (d l : String) :
    l ∈ langsFor s d ↔ ∃ p, p ∈ s ∧ p.1.1 = d ∧ p.1.2 = l := by
  unfold langsFor
  rw [List.mem_map]
  constructor
  · rintro ⟨p, hp, rfl⟩
    rw [List.mem_filter] at hp
    exact ⟨p, hp.1, by simpa using hp.2, rfl⟩
  · rintro ⟨p, hp, hd, rfl⟩
    exact ⟨p, List.mem_filter.2 ⟨hp, by simpa using hd⟩, rfl⟩

/-! ## Concrete fixtures used by witnesses and scenario theorems -/

/-- The language-code table fragment the spec fixes: "twi" normalizes to
"ak". -/
def mappingTwi : List (String × String) := [("twi", "ak")]

def termAbattoir : Term := ⟨1, "abattoir".data, "X".data, "test", "twi", "ak"⟩

def termAcreage : Term := ⟨2, "acreage".data, "Y".data, "test", "twi", "ak"⟩

def bucketScenario : Bucket :=
  [("abattoir".data, termAbattoir), ("acreage".data, termAcreage)]

def storeScenario : Store := [(("test", "twi"), bucketScenario)]

/-- A store whose single (domain, language) pair was loaded from a source
with zero term rows. -/
def storeEmptyBucket : Store := [(("agric", "twi"), [])]

/-! ## C9: load fails when the terminologies directory is missing -/

/-- C9: constructing the store fails with the directory-missing LoadError
whenever the configured terminologies directory does not exist; the result
is the error, so no terminology index is built. -/
theorem c9_missing_directory_fails (mapping : List (String × String)) (files : List TermFile) :
    loadTerminologies mapping false files = .error .dirNotFound := rfl

/-! ## C10: a loaded pair with an empty bucket -/

/-- C10: if a (domain, language) pair is present in the index with an empty
bucket, get_terms_for_domain_lang returns the empty mapping, and
preprocess_text for that exact pair fails with the
no-terminology-for-language error whose list of available languages for the
domain includes the requested language itself. -/
theorem c10_empty_bucket_pair (mapping : List (String × String)) (s : Store) (d l : String)
    (text : List Char) (h : List.lookup (d, l) s = some ([] : Bucket)) :
    get_terms_for_domain_lang mapping s d l = [] ∧
    preprocess_text mapping s text d l =
      .error (.noTerminologyForLanguage d l (langsFor s d)) ∧
    l ∈ langsFor s d := by
  have hpair : ((d, l), ([] : Bucket)) ∈ s := by
    rcases List.lookup_eq_some_iff.1 h with ⟨l₁, l₂, rfl, -⟩
    simp
  have hterms : get_terms_for_domain_lang mapping s d l = [] := by
    unfold get_terms_for_domain_lang
    rw [h]
  refine ⟨hterms, ?_, ?_⟩
  · have hdom : d ∈ getDomains s := (mem_getDomains s d).2 ⟨((d, l), []), hpair, rfl⟩
    unfold preprocess_text
    rw [hterms]
    simp [hdom]
  · exact (mem_langsFor s d l).2 ⟨((d, l), []), hpair, rfl, rfl⟩

/-- Witness for C10 at a concrete store loaded from a zero-row source. -/
theorem c10_empty_bucket_pair_witness :
    get_terms_for_domain_lang mappingTwi storeEmptyBucket "agric" "twi" = [] ∧
    preprocess_text mappingTwi storeEmptyBucket "hello".data "agric" "twi" =
      .error (.noTerminologyForLanguage "agric" "twi" (langsFor storeEmptyBucket "agric")) ∧
    "twi" ∈ langsFor storeEmptyBucket "agric" :=
  c10_empty_bucket_pair mappingTwi storeEmptyBucket "agric" "twi" "hello".data (by decide)

/-! ## C3: the diagnostic contract of preprocess_text -/

/-- C3: when the resolved term set is empty, preprocess_text fails with the
unknown-domain error listing the known domains if no loaded pair has the
requested domain, and otherwise with the no-terminology-for-language error
naming the domain and listing the languages loaded for it; when the
resolved term set is non-empty it raises neither error. -/
theorem c3_diagnostic_contract (mapping : List (String × String)) (s : Store)
    (text : List Char) (d l : String) :
    (get_terms_for_domain_lang mapping s d l = [] → (∀ p ∈ s, p.1.1 ≠ d) →
        preprocess_text mapping s text d l = .error (.unknownDomain (getDomains s))) ∧
    (get_terms_for_domain_lang mapping s d l = [] → (∃ p ∈ s, p.1.1 = d) →
        preprocess_text mapping s text d l =
          .error (.noTerminologyForLanguage d l (langsFor s d))) ∧
    (get_terms_for_domain_lang mapping s d l ≠ [] →
        ∃ out, preprocess_text mapping s text d l = .ok out) := by
  refine ⟨?_, ?_, ?_⟩
  · intro hterms hnod
    have hdom : d ∉ getDomains s := by
      rw [mem_getDomains]
      rintro ⟨p, hp, rfl⟩
      exact hnod p hp rfl
    unfold preprocess_text
    rw [hterms]
    simp [hdom]
  · intro hterms hdom'
    have hdom : d ∈ getDomains s := by
      rw [mem_getDomains]
      rcases hdom' with ⟨p, hp, he⟩
      exact ⟨p, hp, he⟩
    unfold preprocess_text
    rw [hterms]
    simp [hdom]
  · intro hterms
    simp only [preprocess_text]
    exact ⟨_, if_neg (fun hc => hterms (List.isEmpty_iff.1 hc))⟩

/-- Witness for C3: an absent domain, an existing domain with an unknown
language, and a successful resolution, all on the scenario store. -/
theorem c3_diagnostic_contract_witness :
    preprocess_text mappingTwi storeScenario "t".data "x" "twi" =
      .error (.unknownDomain (getDomains storeScenario)) ∧
    preprocess_text mappingTwi storeScenario "t".data "test" "zzz" =
      .error (.noTerminologyForLanguage "test" "zzz" (langsFor storeScenario "test")) ∧
    ∃ out, preprocess_text mappingTwi storeScenario "t".data "test" "twi" = .ok out := by
  refine ⟨?_, ?_, ?_⟩
  · exact (c3_diagnostic_contract mappingTwi storeScenario "t".data "x" "twi").1
      (by decide) (by decide)
  · exact (c3_diagnostic_contract mappingTwi storeScenario "t".data "test" "zzz").2.1
      (by decide) ⟨(("test", "twi"), bucketScenario), by decide, rfl⟩
  · exact (c3_diagnostic_contract mappingTwi storeScenario "t".data "test" "twi").2.2
      (by decide)

/-! ## C2: longest-match precedence -/

def termAcidRain : Term := ⟨1, "acid rain".data, "nsuo".data, "agric", "twi", "ak"⟩

def termAcid : Term := ⟨2, "acid".data, "nsu".data, "agric", "twi", "ak"⟩

def bucketAcid : Bucket := [("acid rain".data, termAcidRain), ("acid".data, termAcid)]

def storeAcid : Store := [(("agric", "twi"), bucketAcid)]

/-- C2: preprocess_text substitutes terms in descending order of term-text
length (the sorted list it folds over is pairwise length-descending), so
with terms "acid rain" (id 1) and "acid" (id 2) in one bucket the text
"acid rain falls" preprocesses to "<1> falls". -/
theorem c2_longest_match_first :
    (∀ ts : List Term,
      List.Pairwise (fun a b => b.term.length ≤ a.term.length) (sortTermsDesc ts)) ∧
    preprocess_text mappingTwi storeAcid "acid rain falls".data "agric" "twi" =
      .ok ("<1> falls".data, [("<1>".data, termAcidRain)]) := by
  constructor
  · intro ts
    haveI : IsTotal Term (fun a b => b.term.length ≤ a.term.length) :=
      ⟨fun a b => Nat.le_total b.term.length a.term.length⟩
    haveI : IsTrans Term (fun a b => b.term.length ≤ a.term.length) :=
      ⟨fun _ _ _ h1 h2 => Nat.le_trans h2 h1⟩
    exact List.sorted_insertionSort (fun a b => b.term.length ≤ a.term.length) ts
  · decide

/-! ## C5: the three language-resolution strategies -/

/-- Follows the spec's words (§4.2 termsFor, strategy (a)): exact
(domain, language) match in the index. -/
def strategyExact (s : Store) (domain language : String) : Option Bucket :=
  List.lookup (domain, language) s

/-- Follows the spec's words (§4.2 termsFor, strategy (b)): if the input
looks like a 2-letter code, the first stored pair of the same domain whose
normalized language code equals it. -/
def strategyTwoLetter (mapping : List (String × String)) (s : Store)
    (domain language : String) : Option Bucket :=
  if language.length = 2 then
    s.findSome? (fun p =>
      if p.1.1 = domain ∧ convert_lang_code mapping p.1.2 = language
      then some p.2 else none)
  else none

/-- Follows the spec's words (§4.2 termsFor, strategy (c)): if the input
looks like a 3-letter code, normalize it and match against the stored
pairs' normalized forms. -/
def strategyThreeLetter (mapping : List (String × String)) (s : Store)
    (domain language : String) : Option Bucket :=
  if language.length = 3 then
    s.findSome? (fun p =>
      if p.1.1 = domain ∧
         convert_lang_code mapping p.1.2 = convert_lang_code mapping language
      then some p.2 else none)
  else none

/-- Follows the spec's words (§4.2): termsFor tries the three strategies in
order and returns the empty mapping when none succeeds. -/
def specTermsFor (mapping : List (String × String)) (s : Store)
    (domain language : String) : Bucket :=
  (((strategyExact s domain language).orElse
      (fun _ => strategyTwoLetter mapping s domain language)).orElse
      (fun _ => strategyThreeLetter mapping s domain language)).getD []

/-- C5: get_terms_for_domain_lang resolves by trying exact match, then the
2-letter scan, then the 3-letter scan, in that order, returning the empty
mapping (and never failing) when no strategy succeeds; with "twi"
normalizing to "ak", the "agric"/"ak" and "agric"/"twi" calls return the
identical term set. -/
theorem c5_resolution_strategies :
    (∀ (mapping : List (String × String)) (s : Store) (d l : String),
      get_terms_for_domain_lang mapping s d l = specTermsFor mapping s d l) ∧
    (∀ (mapping : List (String × String)) (s : Store) (d l : String),
      strategyExact s d l = none → strategyTwoLetter mapping s d l = none →
      strategyThreeLetter mapping s d l = none →
      get_terms_for_domain_lang mapping s d l = []) ∧
    (convert_lang_code mappingTwi "twi" = "ak" ∧
     get_terms_for_domain_lang mappingTwi storeAcid "agric" "ak" =
       get_terms_for_domain_lang mappingTwi storeAcid "agric" "twi" ∧
     get_terms_for_domain_lang mappingTwi storeAcid "agric" "twi" = bucketAcid) := by
  have key : ∀ (o1 o2 o3 : Option Bucket),
      (match o1 with
       | some b => b
       | none =>
         match o2 with
         | some b => b
         | none =>
           match o3 with
           | some b => b
           | none => []) =
      ((o1.orElse fun _ => o2).orElse fun _ => o3).getD [] := by
    intro o1 o2 o3
    cases o1 <;> cases o2 <;> cases o3 <;> rfl
  have main : ∀ (mapping : List (String × String)) (s : Store) (d l : String),
      get_terms_for_domain_lang mapping s d l = specTermsFor mapping s d l := by
    intro mapping s d l
    unfold get_terms_for_domain_lang specTermsFor strategyExact strategyTwoLetter
      strategyThreeLetter
    exact key _ _ _
  refine ⟨main, ?_, by decide, by decide, by decide⟩
  intro mapping s d l h1 h2 h3
  rw [main, specTermsFor, h1, h2, h3]
  rfl

/-- Witness for C5: a call where no strategy succeeds returns the empty
mapping. -/
theorem c5_resolution_strategies_witness :
    get_terms_for_domain_lang mappingTwi storeAcid "x" "qqqq" = [] :=
  c5_resolution_strategies.2.1 mappingTwi storeAcid "x" "qqqq"
    (by decide) (by decide) (by decide)

/-! ## C6: malformed rows during load -/

/-- C6 counterexample: a row whose term cell is missing is a malformed row,
yet the load succeeds silently — pandas renders the missing cell as the
float nan, whose str() is the literal "nan", which is loaded as the term
text.  The claim that every malformed row fails the load with a LoadError
citing file and row is therefore false. -/
theorem c6_counterexample_nan_row_loads :
    loadRows "agric" "twi" "ak" [⟨some 1, none, some "x"⟩] [] =
      .ok [("nan".data, ⟨1, "nan".data, "x".data, "agric", "twi", "ak"⟩)] ∧
    loadTerminologies mappingTwi true [⟨"agric", "twi", [⟨some 1, none, some "x"⟩]⟩] =
      .ok [(("agric", "twi"), [("nan".data, ⟨1, "nan".data, "x".data, "agric", "twi", "ak"⟩)])] := by
  constructor
  · rfl
  · rfl

theorem loadRows_error_iff (d l g : String) (rows : List Row) (acc : Bucket) :
    loadRows d l g rows acc = .error .idConversion ↔ ∃ r ∈ rows, r.id = none := by
  induction rows generalizing acc with
  | nil => simp [loadRows]
  | cons r rs ih =>
    cases hid : r.id with
    | none =>
      simp only [loadRows, rowTerm, hid]
      exact ⟨fun _ => ⟨r, List.mem_cons_self r rs, hid⟩, fun _ => trivial⟩
    | some i =>
      simp only [loadRows, rowTerm, hid]
      rw [ih]
      constructor
      · rintro ⟨r', hr', hid'⟩
        exact ⟨r', List.mem_cons_of_mem r hr', hid'⟩
      · rintro ⟨r', hr', hid'⟩
        rcases List.mem_cons.1 hr' with h | h
        · subst h
          rw [hid] at hid'
          cases hid'
        · exact ⟨r', h, hid'⟩

/-- C6 amended: a row with a missing id makes the load fail, with the bare
conversion error (which cites neither the source file nor the row); rows
with a missing term or translation never fail the load and are loaded with
the missing field rendered as the literal text "nan". -/
theorem c6_amended_malformed_rows (d l g : String) (rows : List Row) :
    (loadRows d l g rows [] = .error .idConversion ↔ ∃ r ∈ rows, r.id = none) ∧
    (∀ (i : Int) (tr : Option String),
      loadRows d l g [⟨some i, none, tr⟩] [] =
        .ok [("nan".data, ⟨i, "nan".data, strOfCell tr, d, l, g⟩)]) ∧
    (∀ (i : Int) (tm : Option String),
      loadRows d l g [⟨some i, tm, none⟩] [] =
        .ok [(rowKey ⟨some i, tm, none⟩, ⟨i, rowKey ⟨some i, tm, none⟩, "nan".data, d, l, g⟩)]) :=
  ⟨loadRows_error_iff d l g rows [], fun _ _ => rfl, fun _ _ => rfl⟩

/-! ## C7: duplicate term texts within one source -/

theorem loadRows_last_write_wins (d l g : String) (rows : List Row) (acc : Bucket)
    (hids : ∀ r ∈ rows, r.id ≠ none) :
    ∃ b, loadRows d l g rows acc = .ok b ∧
      ((acc.map Prod.fst).Nodup → (b.map Prod.fst).Nodup) ∧
      ∀ k, List.lookup k b =
        match rows.reverse.find? (fun r => rowKey r == k) with
        | some r => (rowTerm d l g r).toOption
        | none => List.lookup k acc := by
  induction rows generalizing acc with
  | nil => exact ⟨acc, rfl, id, fun k => by simp⟩
  | cons r rs ih =>
    have hid := hids r (List.mem_cons_self r rs)
    cases hr : r.id with
    | none => exact absurd hr hid
    | some i =>
      have hrows : ∀ r' ∈ rs, r'.id ≠ none :=
        fun r' h => hids r' (List.mem_cons_of_mem r h)
      obtain ⟨b, hb, hnd, hlk⟩ := ih (dictInsert (rowKey r) (⟨i, rowKey r,
        strOfCell r.translation, d, l, g⟩ : Term) acc) hrows
      refine ⟨b, ?_, ?_, ?_⟩
      · rw [show loadRows d l g (r :: rs) acc =
          loadRows d l g rs (dictInsert (rowKey r)
            (⟨i, rowKey r, strOfCell r.translation, d, l, g⟩ : Term) acc) from by
          simp [loadRows, rowTerm, hr]]
        exact hb
      · intro hacc
        exact hnd (nodup_keys_dictInsert _ _ acc hacc)
      · intro k
        rw [hlk k]
        rw [show (r :: rs).reverse = rs.reverse ++ [r] from by simp]
        rw [List.find?_append]
        cases hf : rs.reverse.find? (fun r' => rowKey r' == k) with
        | some r'' => simp
        | none =>
          simp only [Option.none_or]
          rw [lookup_dictInsert]
          by_cases hk : k = rowKey r
          · subst hk
            simp [List.find?, rowTerm, hr, Except.toOption]
          · have : (rowKey r == k) = false := by
              rw [beq_eq_false_iff_ne]
              exact fun hc => hk hc.symm
            simp [List.find?, this, hk]

/-- C7: within one bucket the lowercased, trimmed term text is a unique
key: loading any rows that all carry ids succeeds (duplicates never fail
the load), the bucket's keys are pairwise distinct, and looking a key up
yields exactly the Term of the last row whose normalized term text equals
it. -/
theorem c7_unique_keys_last_write (d l g : String) (rows : List Row)
    (hids : ∀ r ∈ rows, r.id ≠ none) :
    ∃ b, loadRows d l g rows [] = .ok b ∧
      (b.map Prod.fst).Nodup ∧
      ∀ k, List.lookup k b =
        match rows.reverse.find? (fun r => rowKey r == k) with
        | some r => (rowTerm d l g r).toOption
        | none => none := by
  obtain ⟨b, hb, hnd, hlk⟩ := loadRows_last_write_wins d l g rows [] hids
  refine ⟨b, hb, hnd (by simp), fun k => ?_⟩
  rw [hlk k]
  cases List.find? (fun r => rowKey r == k) rows.reverse <;> rfl

/-- Witness for C7 on a source with two rows whose term texts coincide
after lowercasing and trimming. -/
theorem c7_unique_keys_last_write_witness :
    ∃ b, loadRows "agric" "twi" "ak"
        [⟨some 1, some "Dog ", some "d1"⟩, ⟨some 2, some " dog", some "d2"⟩] [] = .ok b ∧
      (b.map Prod.fst).Nodup ∧
      ∀ k, List.lookup k b =
        match [(⟨some 1, some "Dog ", some "d1"⟩ : Row),
               ⟨some 2, some " dog", some "d2"⟩].reverse.find? (fun r => rowKey r == k) with
        | some r => (rowTerm "agric" "twi" "ak" r).toOption
        | none => none :=
  c7_unique_keys_last_write "agric" "twi" "ak"
    [⟨some 1, some "Dog ", some "d1"⟩, ⟨some 2, some " dog", some "d2"⟩]
    (by decide)

/-! ## C8: the replacement map -/

/-- The terms that match at least one occurrence, each against the
progressively rewritten text of its own round of preprocess_text. -/
def matchedOf : List Term → List Char → List Term
  | [], _ => []
  | t :: ts, txt =>
    let r := subTerm t.term (placeholder t.id) txt
    (if r.2.isEmpty then [] else [t]) ++ matchedOf ts r.1

theorem dictInsert_dictInsert {α β : Type} [DecidableEq α] (k : α) (v : β)
    (m : List (α × β)) : dictInsert k v (dictInsert k v m) = dictInsert k v m := by
  induction m with
  | nil => simp [dictInsert]
  | cons p rest ih =>
    obtain ⟨a, b⟩ := p
    by_cases ha : a = k
    · subst ha
      simp [dictInsert]
    · simp [dictInsert, ha, ih]

theorem foldl_dictInsert_const {α β : Type} [DecidableEq α] (k : α) (v : β)
    (ps : List Nat) (m : List (α × β)) (h : ps ≠ []) :
    ps.foldl (fun acc _ => dictInsert k v acc) m = dictInsert k v m := by
  induction ps generalizing m with
  | nil => exact absurd rfl h
  | cons p ps ih =>
    rw [List.foldl_cons]
    cases hp : ps with
    | nil => rfl
    | cons q qs =>
      rw [← hp, ih (dictInsert k v m) (by rw [hp]; exact List.cons_ne_nil q qs),
        dictInsert_dictInsert]

theorem keys_foldl_dictInsert_const {α β : Type} [DecidableEq α] (a k : α) (v : β)
    (ps : List Nat) (m : List (α × β)) :
    a ∈ (ps.foldl (fun acc _ => dictInsert k v acc) m).map Prod.fst ↔
      (ps ≠ [] ∧ a = k) ∨ a ∈ m.map Prod.fst := by
  cases ps with
  | nil => simp
  | cons p qs =>
    rw [foldl_dictInsert_const k v (p :: qs) m (List.cons_ne_nil p qs),
      mem_keys_dictInsert]
    simp

theorem nodup_keys_foldl_dictInsert_const {α β : Type} [DecidableEq α] (k : α) (v : β)
    (ps : List Nat) (m : List (α × β)) (h : (m.map Prod.fst).Nodup) :
    ((ps.foldl (fun acc _ => dictInsert k v acc) m).map Prod.fst).Nodup := by
  cases ps with
  | nil => exact h
  | cons p qs =>
    rw [foldl_dictInsert_const k v (p :: qs) m (List.cons_ne_nil p qs)]
    exact nodup_keys_dictInsert k v m h

theorem keys_foldl_preprocessStep (ts : List Term) (txt : List Char) (m : RepMap)
    (a : List Char) :
    a ∈ ((ts.foldl preprocessStep (txt, m)).2.map Prod.fst) ↔
      a ∈ m.map Prod.fst ∨ ∃ t ∈ matchedOf ts txt, a = placeholder t.id := by
  induction ts generalizing txt m with
  | nil => simp [matchedOf]
  | cons t ts ih =>
    rw [List.foldl_cons]
    show a ∈ ((ts.foldl preprocessStep (preprocessStep (txt, m) t)).2.map Prod.fst) ↔ _
    have hstep : preprocessStep (txt, m) t =
        ((subTerm t.term (placeholder t.id) txt).1,
          (subTerm t.term (placeholder t.id) txt).2.foldl
            (fun m' _ => dictInsert (placeholder t.id) t m') m) := rfl
    rw [hstep, ih, keys_foldl_dictInsert_const]
    simp only [matchedOf]
    cases he : (subTerm t.term (placeholder t.id) txt).2 with
    | nil => simp [he]
    | cons q qs =>
      simp only [he, List.isEmpty_cons, if_neg Bool.false_ne_true, List.singleton_append,
        List.mem_cons, List.cons_ne_nil]
      constructor
      · rintro ((⟨-, rfl⟩ | hm) | ⟨t', ht', rfl⟩)
        · exact Or.inr ⟨t, Or.inl rfl, rfl⟩
        · exact Or.inl hm
        · exact Or.inr ⟨t', Or.inr ht', rfl⟩
      · rintro (hm | ⟨t', ht' | ht', rfl⟩)
        · exact Or.inl (Or.inr hm)
        · subst ht'
          exact Or.inl (Or.inl ⟨List.cons_ne_nil q qs, rfl⟩)
        · exact Or.inr ⟨t', ht', rfl⟩

theorem nodup_keys_foldl_preprocessStep (ts : List Term) (txt : List Char) (m : RepMap)
    (h : (m.map Prod.fst).Nodup) :
    ((ts.foldl preprocessStep (txt, m)).2.map Prod.fst).Nodup := by
  induction ts generalizing txt m with
  | nil => exact h
  | cons t ts ih =>
    rw [List.foldl_cons]
    exact ih _ _ (nodup_keys_foldl_dictInsert_const _ _ _ _ h)

def termCat : Term := ⟨1, "cat".data, "felino".data, "pets", "twi", "ak"⟩

def storeCat : Store := [(("pets", "twi"), [("cat".data, termCat)])]

/-- C8: the replacement map returned by preprocess_text has an entry for a
term's placeholder exactly when the term matched at least one whole-word,
case-insensitive occurrence during its round over the progressively
rewritten text; its keys are pairwise distinct, repeated matches of one
term collapse to the one identical entry, and that entry restores every
occurrence of the placeholder in postprocess_text. -/
theorem c8_replacement_map_entries (mapping : List (String × String)) (s : Store)
    (text out : List Char) (d l : String) (m : RepMap)
    (h : preprocess_text mapping s text d l = .ok (out, m)) :
    (∀ a, a ∈ m.map Prod.fst ↔
      ∃ t ∈ matchedOf
        (sortTermsDesc ((get_terms_for_domain_lang mapping s d l).map (fun p => p.2)))
        text, a = placeholder t.id) ∧
    (m.map Prod.fst).Nodup ∧
    (∀ (k : List Char) (v : Term) (ps : List Nat) (m' : RepMap), ps ≠ [] →
      ps.foldl (fun acc _ => dictInsert k v acc) m' = dictInsert k v m') ∧
    (preprocess_text mappingTwi storeCat "cat and cat".data "pets" "twi" =
      .ok ("<1> and <1>".data, [("<1>".data, termCat)]) ∧
     postprocess_text "<1> and <1>".data [("<1>".data, termCat)] =
      "felino and felino".data) := by
  have hm : m = ((sortTermsDesc
      ((get_terms_for_domain_lang mapping s d l).map (fun p => p.2))).foldl
        preprocessStep (text, [])).2 := by
    by_cases hempty : (get_terms_for_domain_lang mapping s d l).isEmpty = true
    · unfold preprocess_text at h
      rw [if_pos hempty] at h
      by_cases hdom : d ∈ getDomains s
      · rw [if_pos hdom] at h
        cases h
      · rw [if_neg hdom] at h
        cases h
    · unfold preprocess_text at h
      rw [if_neg hempty] at h
      have h2 : ((sortTermsDesc
          ((get_terms_for_domain_lang mapping s d l).map (fun p => p.2))).foldl
            preprocessStep (text, [])) = (out, m) := by
        injection h
      rw [h2]
  refine ⟨?_, ?_, fun k v ps m' hps => foldl_dictInsert_const k v ps m' hps, by decide, by decide⟩
  · intro a
    rw [hm, keys_foldl_preprocessStep]
    simp
  · rw [hm]
    exact nodup_keys_foldl_preprocessStep _ _ _ (by simp)

/-- Witness for C8 at the one-term store, where the term occurs twice. -/
theorem c8_replacement_map_entries_witness :
    (∀ a, a ∈ ([("<1>".data, termCat)] : RepMap).map Prod.fst ↔
      ∃ t ∈ matchedOf
        (sortTermsDesc ((get_terms_for_domain_lang mappingTwi storeCat "pets" "twi").map
          (fun p => p.2)))
        "cat and cat".data, a = placeholder t.id) ∧
    (([("<1>".data, termCat)] : RepMap).map Prod.fst).Nodup ∧
    (∀ (k : List Char) (v : Term) (ps : List Nat) (m' : RepMap), ps ≠ [] →
      ps.foldl (fun acc _ => dictInsert k v acc) m' = dictInsert k v m') ∧
    (preprocess_text mappingTwi storeCat "cat and cat".data "pets" "twi" =
      .ok ("<1> and <1>".data, [("<1>".data, termCat)]) ∧
     postprocess_text "<1> and <1>".data [("<1>".data, termCat)] =
      "felino and felino".data) :=
  c8_replacement_map_entries mappingTwi storeCat "cat and cat".data "<1> and <1>".data
    "pets" "twi" [("<1>".data, termCat)] (by decide)

/-! ## C4: word-boundary and case-insensitive matching -/

theorem wordAfter_append (pw : Bool) (u v : List Char) :
    wordAfter pw (u ++ v) = wordAfter (wordAfter pw u) v := by
  unfold wordAfter
  rw [List.foldl_append]

theorem wordAfter_cons (pw : Bool) (c : Char) (l : List Char) :
    wordAfter pw (c :: l) = wordAfter (isWordChar c) l := rfl

theorem wordAfter_irrel (a b : Bool) (l : List Char) (h : l ≠ []) :
    wordAfter a l = wordAfter b l := by
  cases l with
  | nil => exact absurd rfl h
  | cons c cs => rw [wordAfter_cons, wordAfter_cons]

theorem wordAfter_concat (pw : Bool) (l : List Char) (x : Char) :
    wordAfter pw (l ++ [x]) = isWordChar x := by
  rw [wordAfter_append]
  rfl

theorem uint32_le_iff (a b : UInt32) : a ≤ b ↔ a.toNat ≤ b.toNat := by
  rw [UInt32.le_def, BitVec.le_def]
  exact Iff.rfl

theorem le_val_iff (c : Char) (m : Nat) (u : UInt32) (hu : u.toNat = m) :
    u ≤ c.val ↔ m ≤ c.toNat := by
  rw [uint32_le_iff, hu]
  exact Iff.rfl

theorem val_le_iff (c : Char) (m : Nat) (u : UInt32) (hu : u.toNat = m) :
    c.val ≤ u ↔ c.toNat ≤ m := by
  rw [uint32_le_iff, hu]
  exact Iff.rfl

theorem char_toNat_ofNat {n : Nat} (h : n < 55296) : (Char.ofNat n).toNat = n := by
  unfold Char.ofNat
  rw [dif_pos (Or.inl h)]
  rfl

/-- Lower-casing never changes whether a character is a word character. -/
theorem isWordChar_toLower (c : Char) : isWordChar (Char.toLower c) = isWordChar c := by
  unfold Char.toLower
  by_cases h : Char.toNat c ≥ 65 ∧ Char.toNat c ≤ 90
  · rw [if_pos h]
    have h32 : (Char.ofNat (Char.toNat c + 32)).toNat = Char.toNat c + 32 :=
      char_toNat_ofNat (by omega)
    have hupper : c.isUpper = true := by
      unfold Char.isUpper
      simp only [ge_iff_le, Bool.and_eq_true, decide_eq_true_eq]
      exact ⟨(le_val_iff c 65 65 (by decide)).2 h.1, (val_le_iff c 90 90 (by decide)).2 h.2⟩
    have hlower : (Char.ofNat (Char.toNat c + 32)).isLower = true := by
      unfold Char.isLower
      simp only [ge_iff_le, Bool.and_eq_true, decide_eq_true_eq]
      constructor
      · exact (le_val_iff _ 97 97 (by decide)).2 (by omega)
      · exact (val_le_iff _ 122 122 (by decide)).2 (by omega)
    unfold isWordChar Char.isAlpha
    rw [hupper, hlower]
    simp
  · rw [if_neg h]

/-- Characters with the same lower-casing have the same word-character
status. -/
theorem isWordChar_congr {a b : Char} (h : a.toLower = b.toLower) :
    isWordChar a = isWordChar b := by
  rw [← isWordChar_toLower a, ← isWordChar_toLower b, h]

theorem ciSplit_some_facts (term : List Char) :
    ∀ (s m rest : List Char), ciSplit term s = some (m, rest) →
      m = s.take term.length ∧ rest = s.drop term.length ∧
        lowerStr m = lowerStr term ∧ m.length = term.length := by
  induction term with
  | nil =>
    intro s m rest h
    unfold ciSplit at h
    cases h
    exact ⟨rfl, rfl, rfl, rfl⟩
  | cons t ts ih =>
    intro s m rest h
    cases s with
    | nil => cases h
    | cons c cs =>
      unfold ciSplit at h
      by_cases hc : (t.toLower == c.toLower) = true
      · rw [if_pos hc] at h
        cases hsub : ciSplit ts cs with
        | none => rw [hsub] at h; cases h
        | some pr =>
          rw [hsub] at h
          cases h
          obtain ⟨h1, h2, h3, h4⟩ := ih cs pr.1 pr.2 (by rw [hsub])
          refine ⟨?_, ?_, ?_, ?_⟩
          · rw [List.length_cons, List.take_succ_cons, ← h1]
          · rw [List.length_cons, List.drop_succ_cons, ← h2]
          · show Char.toLower c :: lowerStr pr.1 = Char.toLower t :: lowerStr ts
            rw [h3, (beq_iff_eq.1 hc)]
          · simp [h4]
      · rw [if_neg hc] at h
        cases h

theorem ciSplit_of (term : List Char) :
    ∀ (s : List Char), term.length ≤ s.length →
      lowerStr (s.take term.length) = lowerStr term →
      ciSplit term s = some (s.take term.length, s.drop term.length) := by
  induction term with
  | nil =>
    intro s _ _
    rfl
  | cons t ts ih =>
    intro s h1 h2
    cases s with
    | nil => simp at h1
    | cons c cs =>
      rw [List.length_cons, List.take_succ_cons] at h2
      have hh : Char.toLower c = Char.toLower t ∧
          lowerStr (cs.take ts.length) = lowerStr ts := by
        have := List.cons.inj h2
        exact ⟨this.1, this.2⟩
      unfold ciSplit
      rw [if_pos (beq_iff_eq.2 hh.1.symm), ih cs (by simpa using h1) hh.2]
      simp

theorem matchAt_some (term : List Char) (pw : Bool) (s m rest : List Char)
    (h : matchAt term pw s = some (m, rest)) :
    s = m ++ rest ∧ m = s.take term.length ∧ rest = s.drop term.length ∧
      lowerStr m = lowerStr term ∧ m.length = term.length := by
  unfold matchAt at h
  cases hs : ciSplit term s with
  | none => rw [hs] at h; cases h
  | some pr =>
    obtain ⟨m', rest'⟩ := pr
    obtain ⟨h1, h2, h3, h4⟩ := ciSplit_some_facts term s m' rest' hs
    rw [hs] at h
    cases m' with
    | nil =>
      dsimp only at h
      by_cases hb : (pw != headWord rest') = true
      · rw [if_pos hb] at h
        cases h
        refine ⟨?_, h1, h2, h3, h4⟩
        rw [List.nil_append, h2]
        conv_lhs => rw [← List.take_append_drop term.length s]
        rw [← h1, List.nil_append]
      · rw [if_neg hb] at h
        cases h
    | cons c m'' =>
      dsimp only at h
      by_cases hb : ((pw != isWordChar c) && (wordAfter true (c :: m'') != headWord rest')) = true
      · rw [if_pos hb] at h
        cases h
        refine ⟨?_, h1, h2, h3, h4⟩
        rw [h1, h2, List.take_append_drop]
      · rw [if_neg hb] at h
        cases h

/-- The code's matching condition: the pattern \b<term>\b (IGNORECASE) has
a match at position p of the text, boundaries taken as xor of the
word-character statuses of the neighbouring original characters. -/
def codeWholeWordAt (term text : List Char) (p : Nat) : Bool :=
  (matchAt term (wordAfter false (text.take p)) (text.drop p)).isSome

/-- Follows the claim's words: the occurrence at position p equals the term
text case-insensitively and is not adjacent to another word character on
either side. -/
def claimWholeWordAt (term text : List Char) (p : Nat) : Bool :=
  decide (term.length ≤ (text.drop p).length) &&
    (lowerStr ((text.drop p).take term.length) == lowerStr term) &&
    !(wordAfter false (text.take p)) && !(headWord (text.drop (p + term.length)))

theorem subScan_succ_nil (term repl : List Char) (fuel : Nat) (pw : Bool) (pos : Nat) :
    subScan term repl (fuel + 1) pw [] pos =
      if term.isEmpty && pw then (repl, [pos]) else ([], []) := by
  conv_lhs => unfold subScan

theorem subScan_cons_none (term repl : List Char) (fuel : Nat) (pw : Bool) (c : Char)
    (cs : List Char) (pos : Nat) (h : matchAt term pw (c :: cs) = none) :
    subScan term repl (fuel + 1) pw (c :: cs) pos =
      ((c :: (subScan term repl fuel (isWordChar c) cs (pos + 1)).1),
        (subScan term repl fuel (isWordChar c) cs (pos + 1)).2) := by
  conv_lhs => unfold subScan
  simp only [h]

theorem subScan_cons_empty (term repl : List Char) (fuel : Nat) (pw : Bool) (c : Char)
    (cs : List Char) (pos : Nat) (rest : List Char)
    (h : matchAt term pw (c :: cs) = some ([], rest)) :
    subScan term repl (fuel + 1) pw (c :: cs) pos =
      ((repl ++ c :: (subScan term repl fuel (isWordChar c) cs (pos + 1)).1),
        pos :: (subScan term repl fuel (isWordChar c) cs (pos + 1)).2) := by
  conv_lhs => unfold subScan
  simp only [h]

theorem subScan_cons_match (term repl : List Char) (fuel : Nat) (pw : Bool) (c c' : Char)
    (cs m'' : List Char) (pos : Nat) (rest : List Char)
    (h : matchAt term pw (c :: cs) = some (c' :: m'', rest)) :
    subScan term repl (fuel + 1) pw (c :: cs) pos =
      ((repl ++ (subScan term repl fuel (wordAfter true (c' :: m'')) rest
          (pos + (c' :: m'').length)).1),
        pos :: (subScan term repl fuel (wordAfter true (c' :: m'')) rest
          (pos + (c' :: m'').length)).2) := by
  conv_lhs => unfold subScan
  simp only [h]

theorem subScan_sound (term repl : List Char) :
    ∀ (fuel : Nat) (pw : Bool) (s : List Char) (pos : Nat), s.length < fuel →
      ∀ q ∈ (subScan term repl fuel pw s pos).2,
        pos ≤ q ∧
          (matchAt term (wordAfter pw (s.take (q - pos))) (s.drop (q - pos))).isSome = true := by
  intro fuel
  induction fuel with
  | zero =>
    intro pw s pos hf
    exact absurd hf (Nat.not_lt_zero _)
  | succ fuel ih =>
    intro pw s pos hf q hq
    cases s with
    | nil =>
      rw [subScan_succ_nil] at hq
      by_cases hcond : (term.isEmpty && pw) = true
      · rw [if_pos hcond] at hq
        rw [List.mem_singleton] at hq
        subst hq
        obtain ⟨ht, hpw⟩ := Bool.and_eq_true_iff.1 hcond
        rw [List.isEmpty_iff] at ht
        subst ht
        subst hpw
        exact ⟨Nat.le_refl q, by rw [Nat.sub_self]; rfl⟩
      · rw [if_neg hcond] at hq
        cases hq
    | cons c cs =>
      have hcs : cs.length < fuel := by
        rw [List.length_cons] at hf
        omega
      have hlater : ∀ q', q' ∈ (subScan term repl fuel (isWordChar c) cs (pos + 1)).2 →
          pos ≤ q' ∧
            (matchAt term (wordAfter pw ((c :: cs).take (q' - pos)))
              ((c :: cs).drop (q' - pos))).isSome = true := by
        intro q' hq'
        obtain ⟨hle, hmatch⟩ := ih (isWordChar c) cs (pos + 1) hcs q' hq'
        refine ⟨by omega, ?_⟩
        have harith : q' - pos = (q' - (pos + 1)) + 1 := by omega
        rw [harith, List.take_succ_cons, List.drop_succ_cons, wordAfter_cons]
        exact hmatch
      cases hm : matchAt term pw (c :: cs) with
      | none =>
        rw [subScan_cons_none term repl fuel pw c cs pos hm] at hq
        exact hlater q hq
      | some pr =>
        obtain ⟨m, rest⟩ := pr
        cases m with
        | nil =>
          rw [subScan_cons_empty term repl fuel pw c cs pos rest hm] at hq
          rcases List.mem_cons.1 hq with hq | hq
          · subst hq
            rw [Nat.sub_self]
            refine ⟨Nat.le_refl _, ?_⟩
            rw [List.take_zero, List.drop_zero, show wordAfter pw [] = pw from rfl, hm]
            rfl
          · exact hlater q hq
        | cons c' m'' =>
          obtain ⟨hsplit, hmtake, hrdrop, hlow, hlen⟩ := matchAt_some term pw _ _ _ hm
          have hrest : rest.length < fuel := by
            have := congrArg List.length hsplit
            simp only [List.length_cons, List.length_append] at this hf
            omega
          rw [subScan_cons_match term repl fuel pw c c' cs m'' pos rest hm] at hq
          rcases List.mem_cons.1 hq with hq | hq
          · subst hq
            rw [Nat.sub_self]
            refine ⟨Nat.le_refl _, ?_⟩
            rw [List.take_zero, List.drop_zero, show wordAfter pw [] = pw from rfl, hm]
            rfl
          · obtain ⟨hle, hmatch⟩ := ih (wordAfter true (c' :: m'')) rest
              (pos + (c' :: m'').length) hrest q hq
            refine ⟨by omega, ?_⟩
            have harith : q - pos = (c' :: m'').length + (q - (pos + (c' :: m'').length)) := by
              omega
            rw [harith, hsplit, List.take_append, List.drop_append, wordAfter_append,
              wordAfter_irrel pw true (c' :: m'') (List.cons_ne_nil c' m'')]
            exact hmatch

theorem subScan_complete (term repl : List Char) (hterm : term ≠ []) :
    ∀ (fuel : Nat) (pw : Bool) (s : List Char) (pos : Nat), s.length < fuel →
      ∀ k, (matchAt term (wordAfter pw (s.take k)) (s.drop k)).isSome = true →
        (subScan term repl fuel pw s pos).2 ≠ [] := by
  intro fuel
  induction fuel with
  | zero =>
    intro pw s pos hf
    exact absurd hf (Nat.not_lt_zero _)
  | succ fuel ih =>
    intro pw s pos hf k hk
    cases s with
    | nil =>
      obtain ⟨t, ts, rfl⟩ := List.exists_cons_of_ne_nil hterm
      rw [List.take_nil, List.drop_nil] at hk
      rw [show matchAt (t :: ts) (wordAfter pw []) [] = none from rfl] at hk
      cases hk
    | cons c cs =>
      cases hm : matchAt term pw (c :: cs) with
      | some pr =>
        obtain ⟨m, rest⟩ := pr
        cases m with
        | nil =>
          rw [subScan_cons_empty term repl fuel pw c cs pos rest hm]
          exact List.cons_ne_nil _ _
        | cons c' m'' =>
          rw [subScan_cons_match term repl fuel pw c c' cs m'' pos rest hm]
          exact List.cons_ne_nil _ _
      | none =>
        rw [subScan_cons_none term repl fuel pw c cs pos hm]
        cases k with
        | zero =>
          rw [List.take_zero, List.drop_zero, show wordAfter pw [] = pw from rfl, hm] at hk
          cases hk
        | succ k' =>
          have hcs : cs.length < fuel := by
            rw [List.length_cons] at hf
            omega
          rw [List.take_succ_cons, List.drop_succ_cons, wordAfter_cons] at hk
          exact ih (isWordChar c) cs (pos + 1) hcs k' hk

theorem subTerm_sound (term repl text : List Char) :
    ∀ q ∈ (subTerm term repl text).2, codeWholeWordAt term text q = true := by
  intro q hq
  obtain ⟨-, h⟩ := subScan_sound term repl (text.length + 1) false text 0
    (Nat.lt_succ_self _) q hq
  simpa [codeWholeWordAt] using h

theorem subTerm_flag_iff (term repl text : List Char) (hterm : term ≠ []) :
    (subTerm term repl text).2 ≠ [] ↔ ∃ p, codeWholeWordAt term text p = true := by
  constructor
  · intro h
    obtain ⟨q, hq⟩ := List.exists_mem_of_ne_nil _ h
    exact ⟨q, subTerm_sound term repl text q hq⟩
  · rintro ⟨p, hp⟩
    exact subScan_complete term repl hterm (text.length + 1) false text 0
      (Nat.lt_succ_self _) p (by simpa [codeWholeWordAt] using hp)

theorem headWord_eq_of_lowerStr {m term : List Char} (h : lowerStr m = lowerStr term) :
    headWord m = headWord term := by
  cases m with
  | nil =>
    cases term with
    | nil => rfl
    | cons t ts => simp [lowerStr] at h
  | cons c cs =>
    cases term with
    | nil => simp [lowerStr] at h
    | cons t ts =>
      simp only [lowerStr, List.map_cons, List.cons.injEq] at h
      show isWordChar c = isWordChar t
      exact isWordChar_congr h.1

theorem wordAfter_eq_getLast? (a : Bool) (l : List Char) (x : Char)
    (h : l.getLast? = some x) : wordAfter a l = isWordChar x := by
  rcases List.eq_nil_or_concat l with rfl | ⟨L, b, rfl⟩
  · cases h
  · rw [List.concat_eq_append] at h
    rw [List.concat_eq_append, wordAfter_concat]
    rw [List.getLast?_concat] at h
    cases h
    rfl

theorem lastWord_eq_of_lowerStr {m term : List Char} (h : lowerStr m = lowerStr term)
    (hm : m ≠ []) (hterm : term ≠ []) (a b : Bool) :
    wordAfter a m = wordAfter b term := by
  have hx := List.getLast?_eq_getLast m hm
  have hy := List.getLast?_eq_getLast term hterm
  have hxy : Char.toLower (m.getLast hm) = Char.toLower (term.getLast hterm) := by
    have hmap := congrArg List.getLast? h
    rw [lowerStr, lowerStr, List.getLast?_map, List.getLast?_map, hx, hy] at hmap
    simpa using hmap
  rw [wordAfter_eq_getLast? a m _ hx, wordAfter_eq_getLast? b term _ hy]
  exact isWordChar_congr hxy

theorem matchAt_some_boundary (term : List Char) (pw : Bool) (s m rest : List Char)
    (h : matchAt term pw s = some (m, rest)) :
    (match m with
     | [] => pw != headWord rest
     | c :: m'' => (pw != isWordChar c) && (wordAfter true (c :: m'') != headWord rest)) =
      true := by
  unfold matchAt at h
  cases hs : ciSplit term s with
  | none => rw [hs] at h; cases h
  | some pr =>
    obtain ⟨m', rest'⟩ := pr
    rw [hs] at h
    cases m' with
    | nil =>
      dsimp only at h
      by_cases hb : (pw != headWord rest') = true
      · rw [if_pos hb] at h
        cases h
        exact hb
      · rw [if_neg hb] at h
        cases h
    | cons c m'' =>
      dsimp only at h
      by_cases hb : ((pw != isWordChar c) && (wordAfter true (c :: m'') != headWord rest')) = true
      · rw [if_pos hb] at h
        cases h
        exact hb
      · rw [if_neg hb] at h
        cases h

/-- For terms that begin and end with a word character, the code's
xor-boundary condition at a position is exactly the claim's
"not adjacent to another word character on either side". -/
theorem code_eq_claim (term text : List Char) (p : Nat)
    (h1 : headWord term = true) (h2 : wordAfter true term = true) :
    codeWholeWordAt term text p = claimWholeWordAt term text p := by
  have hterm : term ≠ [] := by
    cases term with
    | nil => cases h1
    | cons t ts => exact List.cons_ne_nil t ts
  rw [Bool.eq_iff_iff]
  constructor
  · intro hc
    unfold codeWholeWordAt at hc
    cases hm : matchAt term (wordAfter false (text.take p)) (text.drop p) with
    | none => rw [hm] at hc; cases hc
    | some pr =>
      obtain ⟨m, rest⟩ := pr
      obtain ⟨hsplit, hmtake, hrdrop, hlow, hlen⟩ := matchAt_some term _ _ _ _ hm
      have hbnd := matchAt_some_boundary term _ _ _ _ hm
      have hmne : m ≠ [] := by
        intro hc'
        rw [hc'] at hlen
        exact hterm (List.eq_nil_of_length_eq_zero hlen.symm)
      cases m with
      | nil => exact absurd rfl hmne
      | cons c m'' =>
        dsimp only at hbnd
        obtain ⟨hb1, hb2⟩ := Bool.and_eq_true_iff.1 hbnd
        have hcword : isWordChar c = true := by
          have := headWord_eq_of_lowerStr hlow
          rw [h1] at this
          exact this
        have hlastword : wordAfter true (c :: m'') = true := by
          rw [lastWord_eq_of_lowerStr hlow hmne hterm true true]
          exact h2
        have hpw : wordAfter false (text.take p) = false := by
          rw [hcword] at hb1
          cases hh : wordAfter false (text.take p)
          · rfl
          · rw [hh] at hb1; cases hb1
        have hrestword : headWord rest = false := by
          rw [hlastword] at hb2
          cases hh : headWord rest
          · rfl
          · rw [hh] at hb2; cases hb2
        have hslen : term.length ≤ (text.drop p).length := by
          have := congrArg List.length hsplit
          rw [List.length_append, List.length_cons] at this
          rw [this, ← hlen]
          exact Nat.le_add_right _ _
        have hresteq : text.drop (p + term.length) = rest := by
          rw [← List.drop_drop, ← hrdrop]
        unfold claimWholeWordAt
        rw [hresteq, hrestword, hpw, ← hmtake,
          decide_eq_true hslen, beq_iff_eq.2 hlow]
        rfl
  · intro hcl
    unfold claimWholeWordAt at hcl
    simp only [Bool.and_eq_true, decide_eq_true_eq, beq_iff_eq,
      Bool.not_eq_true'] at hcl
    obtain ⟨⟨⟨hslen, hci⟩, hpw⟩, hrest⟩ := hcl
    have hcis := ciSplit_of term (text.drop p) hslen hci
    have hmlen : ((text.drop p).take term.length).length = term.length := by
      rw [List.length_take]
      omega
    have hmne : (text.drop p).take term.length ≠ [] := by
      intro hc'
      rw [hc', List.length_nil] at hmlen
      exact hterm (List.eq_nil_of_length_eq_zero hmlen.symm)
    unfold codeWholeWordAt matchAt
    rw [hcis]
    cases hmm : (text.drop p).take term.length with
    | nil => exact absurd hmm hmne
    | cons c m'' =>
      rw [hmm] at hci
      dsimp only
      have hcword : isWordChar c = true := by
        have := headWord_eq_of_lowerStr hci
        rw [h1] at this
        exact this
      have hlastword : wordAfter true (c :: m'') = true := by
        rw [lastWord_eq_of_lowerStr hci (List.cons_ne_nil c m'') hterm true true]
        exact h2
      have hrest' : headWord ((text.drop p).drop term.length) = false := by
        rw [List.drop_drop]
        exact hrest
      rw [if_pos (by rw [hpw, hcword, hlastword, hrest']; rfl)]
      rfl

def termPlus : Term := ⟨1, "+".data, "PLUS".data, "math", "twi", "ak"⟩

def storePlus : Store := [(("math", "twi"), [("+".data, termPlus)])]

/-- C4 counterexample: for the term "+" in the text "a+b" the code replaces
the occurrence at position 1 (the pattern is \b\+\b, whose boundaries hold
because the word-character statuses of the two sides differ), although that
occurrence is adjacent to word characters on both sides, so the claim's
"replaces iff ... not adjacent to another word character on either side"
is false as stated. -/
theorem c4_counterexample_nonword_term :
    subTerm "+".data (placeholder 1) "a+b".data = ("a<1>b".data, [1]) ∧
    preprocess_text mappingTwi storePlus "a+b".data "math" "twi" =
      .ok ("a<1>b".data, [("<1>".data, termPlus)]) ∧
    claimWholeWordAt "+".data "a+b".data 1 = false := by
  refine ⟨by decide, by decide, by decide⟩

/-- C4 amended: every position preprocess_text's per-term substitution
replaces satisfies the code's whole-word condition (a case-insensitive
occurrence whose \b boundaries hold, i.e. the word-character statuses on
the two sides of each end differ); a term makes at least one replacement
iff such a position exists; for terms that begin and end with a word
character this condition is exactly the claim's "equals the term
case-insensitively and is not adjacent to another word character"; "cat"
never matches inside "category" and lowercase "acreage" matches
"ACREAGE". -/
theorem c4_amended_whole_word_matching :
    (∀ term repl text, term ≠ [] →
      (∀ q ∈ (subTerm term repl text).2, codeWholeWordAt term text q = true) ∧
      ((subTerm term repl text).2 ≠ [] ↔ ∃ p, codeWholeWordAt term text p = true)) ∧
    (∀ term text p, headWord term = true → wordAfter true term = true →
      codeWholeWordAt term text p = claimWholeWordAt term text p) ∧
    (subTerm "cat".data (placeholder 1) "category".data = ("category".data, []) ∧
     subTerm "acreage".data (placeholder 2) "ACREAGE".data = (placeholder 2, [0]) ∧
     preprocess_text mappingTwi storeCat "category".data "pets" "twi" =
       .ok ("category".data, []) ∧
     preprocess_text mappingTwi storeScenario "ACREAGE".data "test" "twi" =
       .ok ("<2>".data, [("<2>".data, termAcreage)])) := by
  refine ⟨fun term repl text ht =>
      ⟨subTerm_sound term repl text, subTerm_flag_iff term repl text ht⟩,
    fun term text p h1 h2 => code_eq_claim term text p h1 h2,
    by decide, by decide, by decide, by decide⟩

/-- Witness for C4's amended theorem at the term "cat" and the text
"the cat sat". -/
theorem c4_amended_whole_word_matching_witness :
    (∀ q ∈ (subTerm "cat".data (placeholder 1) "the cat sat".data).2,
      codeWholeWordAt "cat".data "the cat sat".data q = true) ∧
    ((subTerm "cat".data (placeholder 1) "the cat sat".data).2 ≠ [] ↔
      ∃ p, codeWholeWordAt "cat".data "the cat sat".data p = true) ∧
    codeWholeWordAt "cat".data "the cat sat".data 4 =
      claimWholeWordAt "cat".data "the cat sat".data 4 :=
  ⟨(c4_amended_whole_word_matching.1 "cat".data (placeholder 1) "the cat sat".data
      (by decide)).1,
   (c4_amended_whole_word_matching.1 "cat".data (placeholder 1) "the cat sat".data
      (by decide)).2,
   c4_amended_whole_word_matching.2.1 "cat".data "the cat sat".data 4
      (by decide) (by decide)⟩

/-! ## C1: the preprocess/postprocess round trip -/

def termFoo : Term := ⟨1, "foo".data, "X".data, "d", "twi", "ak"⟩

def storeFoo : Store := [(("d", "twi"), [("foo".data, termFoo)])]

/-- C1 counterexample: with the single term (1, "foo", "X") and the input
"foo <1> bar", which already contains the placeholder text "<1>", the
round trip yields "X X bar", while the text in which every whole-word
case-insensitive occurrence of the matched term is replaced by its
translation and every other character is unchanged is "X <1> bar" (for a
single term that text is exactly the substitution scan run with the
translation).  The pre-existing "<1>" characters are not preserved, so the
claim fails for this input text. -/
theorem c1_counterexample_placeholder_collision :
    preprocess_text mappingTwi storeFoo "foo <1> bar".data "d" "twi" =
      .ok ("<1> <1> bar".data, [("<1>".data, termFoo)]) ∧
    postprocess_text "<1> <1> bar".data [("<1>".data, termFoo)] = "X X bar".data ∧
    (subTerm "foo".data "X".data "foo <1> bar".data).1 = "X <1> bar".data ∧
    "X X bar".data ≠ "X <1> bar".data := by
  refine ⟨by decide, by decide, by decide, by decide⟩

/-- No angle-bracket characters in a text. -/
def bracketFree (l : List Char) : Bool :=
  l.all (fun c => !(c == '<') && !(c == '>'))

/-- At least one character that is not a decimal digit. -/
def hasNonDigit (l : List Char) : Bool := l.any (fun c => !c.isDigit)

theorem bracketFree_iff (l : List Char) :
    bracketFree l = true ↔ ∀ c ∈ l, c ≠ '<' ∧ c ≠ '>' := by
  unfold bracketFree
  rw [List.all_eq_true]
  constructor
  · intro h c hc
    have := h c hc
    simp only [Bool.and_eq_true, Bool.not_eq_true', beq_eq_false_iff_ne] at this
    exact this
  · intro h c hc
    have := h c hc
    simp only [Bool.and_eq_true, Bool.not_eq_true', beq_eq_false_iff_ne]
    exact this

/-- If the lower-casing of c is a character below code point 97, then c was
already that character (only uppercase letters move, and they move into
97..122). -/
theorem toLower_eq_of_lt97 {c x : Char} (hx : x.toNat < 97) (h : Char.toLower c = x) :
    c = x := by
  unfold Char.toLower at h
  by_cases hc : Char.toNat c ≥ 65 ∧ Char.toNat c ≤ 90
  · rw [if_pos hc] at h
    have := congrArg Char.toNat h
    rw [char_toNat_ofNat (by omega)] at this
    omega
  · rw [if_neg hc] at h
    exact h

theorem toLower_digit {c : Char} (h : c.isDigit = true) : Char.toLower c = c := by
  unfold Char.isDigit at h
  simp only [Bool.and_eq_true, decide_eq_true_eq] at h
  have h1 : 48 ≤ c.toNat := (le_val_iff c 48 48 (by decide)).1 h.1
  have h2 : c.toNat ≤ 57 := (val_le_iff c 57 57 (by decide)).1 h.2
  unfold Char.toLower
  rw [if_neg (by omega)]

theorem digit_of_toLower_digit {c d : Char} (hd : d.isDigit = true)
    (h : Char.toLower c = d) : c = d := by
  have h1 : 48 ≤ d.toNat := by
    unfold Char.isDigit at hd
    simp only [Bool.and_eq_true, decide_eq_true_eq] at hd
    exact (le_val_iff d 48 48 (by decide)).1 hd.1
  have h2 : d.toNat ≤ 57 := by
    unfold Char.isDigit at hd
    simp only [Bool.and_eq_true, decide_eq_true_eq] at hd
    exact (val_le_iff d 57 57 (by decide)).1 hd.2
  exact toLower_eq_of_lt97 (by omega) h

/-- Every character of the decimal representation of a natural number is a
digit. -/
theorem natStrAux_digits (fuel : Nat) : ∀ (n : Nat), ∀ c ∈ natStrAux fuel n, c.isDigit = true := by
  induction fuel with
  | zero =>
    intro n c hc
    cases hc
  | succ fuel ih =>
    intro n c hc
    unfold natStrAux at hc
    by_cases h : n < 10
    · rw [if_pos h] at hc
      rw [List.mem_singleton] at hc
      subst hc
      unfold digitChar Char.isDigit
      have ht : (Char.ofNat (48 + n)).toNat = 48 + n := char_toNat_ofNat (by omega)
      simp only [ge_iff_le, Bool.and_eq_true, decide_eq_true_eq]
      exact ⟨(le_val_iff _ 48 48 (by decide)).2 (by rw [ht]; omega),
        (val_le_iff _ 57 57 (by decide)).2 (by rw [ht]; omega)⟩
    · rw [if_neg h] at hc
      rcases List.mem_append.1 hc with hc | hc
      · exact ih (n / 10) c hc
      · rw [List.mem_singleton] at hc
        subst hc
        unfold digitChar Char.isDigit
        have ht : (Char.ofNat (48 + n % 10)).toNat = 48 + n % 10 :=
          char_toNat_ofNat (by omega)
        simp only [ge_iff_le, Bool.and_eq_true, decide_eq_true_eq]
        exact ⟨(le_val_iff _ 48 48 (by decide)).2 (by rw [ht]; omega),
          (val_le_iff _ 57 57 (by decide)).2 (by rw [ht]; omega)⟩

theorem subScan_fuel (term repl : List Char) :
    ∀ (f1 : Nat), ∀ (f2 : Nat) (pw : Bool) (s : List Char) (pos : Nat),
      s.length < f1 → s.length < f2 →
      subScan term repl f1 pw s pos = subScan term repl f2 pw s pos := by
  intro f1
  induction f1 with
  | zero =>
    intro f2 pw s pos h1 h2
    exact absurd h1 (Nat.not_lt_zero _)
  | succ f1 ih =>
    intro f2 pw s pos h1 h2
    cases f2 with
    | zero => exact absurd h2 (Nat.not_lt_zero _)
    | succ f2 =>
      cases s with
      | nil => rw [subScan_succ_nil, subScan_succ_nil]
      | cons c cs =>
        have hcs1 : cs.length < f1 := by
          rw [List.length_cons] at h1
          omega
        have hcs2 : cs.length < f2 := by
          rw [List.length_cons] at h2
          omega
        cases hm : matchAt term pw (c :: cs) with
        | none =>
          rw [subScan_cons_none term repl f1 pw c cs pos hm,
            subScan_cons_none term repl f2 pw c cs pos hm,
            ih f2 (isWordChar c) cs (pos + 1) hcs1 hcs2]
        | some pr =>
          obtain ⟨m, rest⟩ := pr
          cases m with
          | nil =>
            rw [subScan_cons_empty term repl f1 pw c cs pos rest hm,
              subScan_cons_empty term repl f2 pw c cs pos rest hm,
              ih f2 (isWordChar c) cs (pos + 1) hcs1 hcs2]
          | cons c' m'' =>
            obtain ⟨hsplit, -, -, -, -⟩ := matchAt_some term pw _ _ _ hm
            have hr : rest.length < f1 ∧ rest.length < f2 := by
              have := congrArg List.length hsplit
              rw [List.length_cons, List.length_append, List.length_cons] at this
              omega
            rw [subScan_cons_match term repl f1 pw c c' cs m'' pos rest hm,
              subScan_cons_match term repl f2 pw c c' cs m'' pos rest hm,
              ih f2 (wordAfter true (c' :: m'')) rest (pos + (c' :: m'').length) hr.1 hr.2]

theorem term_mem_of_lower {term l : List Char} (hlow : lowerStr l = lowerStr term)
    {x : Char} (hx : Char.toLower x = x) (hx97 : x.toNat < 97) (hmem : x ∈ l) :
    x ∈ term := by
  have h1 : Char.toLower x ∈ lowerStr term := by
    rw [← hlow]
    exact List.mem_map_of_mem _ hmem
  rw [hx] at h1
  rcases List.mem_map.1 h1 with ⟨tc, htc, heq⟩
  rw [toLower_eq_of_lt97 hx97 heq] at htc
  exact htc

theorem matchAt_append (term : List Char) (hne : term ≠ []) (hbf : bracketFree term = true)
    (pw : Bool) (u v : List Char) (hv : v = [] ∨ ∃ w, v = '<' :: w) :
    matchAt term pw (u ++ v) = (matchAt term pw u).map (fun pr => (pr.1, pr.2 ++ v)) := by
  cases hcu : ciSplit term u with
  | some pr =>
    obtain ⟨m, rest⟩ := pr
    obtain ⟨hm, hrest, hlow, hlen⟩ := ciSplit_some_facts term u m rest hcu
    have hlenle : term.length ≤ u.length := by
      have h1 := congrArg List.length hm
      rw [List.length_take] at h1
      omega
    have hcuv : ciSplit term (u ++ v) = some (m, rest ++ v) := by
      have h2 := ciSplit_of term (u ++ v)
        (by rw [List.length_append]; omega)
        (by rw [List.take_append_of_le_length hlenle, ← hm, hlow])
      rw [List.take_append_of_le_length hlenle, ← hm,
        List.drop_append_of_le_length hlenle, ← hrest] at h2
      exact h2
    have hhw : headWord (rest ++ v) = headWord rest := by
      cases rest with
      | cons r rs => rfl
      | nil =>
        rcases hv with rfl | ⟨w, rfl⟩
        · rfl
        · rfl
    unfold matchAt
    rw [hcu, hcuv]
    cases m with
    | nil =>
      dsimp only
      rw [hhw]
      by_cases hb : (pw != headWord rest) = true
      · rw [if_pos hb, if_pos hb]
        rfl
      · rw [if_neg hb, if_neg hb]
        rfl
    | cons c m'' =>
      dsimp only
      rw [hhw]
      by_cases hb : ((pw != isWordChar c) && (wordAfter true (c :: m'') != headWord rest)) = true
      · rw [if_pos hb, if_pos hb]
        rfl
      · rw [if_neg hb, if_neg hb]
        rfl
  | none =>
    cases hcuv : ciSplit term (u ++ v) with
    | none =>
      unfold matchAt
      rw [hcu, hcuv]
      rfl
    | some pr =>
      exfalso
      obtain ⟨m, rest⟩ := pr
      obtain ⟨hm, hrest, hlow, hlen⟩ := ciSplit_some_facts term (u ++ v) m rest hcuv
      have hlenuv : term.length ≤ (u ++ v).length := by
        have h1 := congrArg List.length hm
        rw [List.length_take] at h1
        omega
      by_cases hle : term.length ≤ u.length
      · have h2 := ciSplit_of term u hle
          (by rw [← List.take_append_of_le_length hle, ← hm, hlow])
        rw [hcu] at h2
        cases h2
      · push_neg at hle
        rcases hv with rfl | ⟨w, rfl⟩
        · rw [List.append_nil] at hlenuv
          omega
        · have hmem : '<' ∈ m := by
            rw [hm, List.take_append_eq_append_take,
              List.take_of_length_le (Nat.le_of_lt hle)]
            refine List.mem_append.2 (Or.inr ?_)
            have hk : term.length - u.length = (term.length - u.length - 1) + 1 := by
              omega
            rw [hk, List.take_succ_cons]
            exact List.mem_cons_self _ _
          have := term_mem_of_lower hlow (by decide) (by decide) hmem
          exact ((bracketFree_iff term).1 hbf '<' this).1 rfl

theorem matchAt_none_head (term : List Char) (hne : term ≠ []) (hbf : bracketFree term = true)
    (pw : Bool) (x : Char) (hx : x = '<' ∨ x = '>') (w : List Char) :
    matchAt term pw (x :: w) = none := by
  cases hm : matchAt term pw (x :: w) with
  | none => rfl
  | some pr =>
    exfalso
    obtain ⟨m, rest⟩ := pr
    obtain ⟨hsplit, hmtake, hrest, hlow, hlen⟩ := matchAt_some term pw _ _ _ hm
    have hmne : m ≠ [] := by
      intro hc
      rw [hc, List.length_nil] at hlen
      exact hne (List.eq_nil_of_length_eq_zero hlen.symm)
    have hterml : term.length = (term.length - 1) + 1 := by
      cases term with
      | nil => exact absurd rfl hne
      | cons t ts =>
        rw [List.length_cons]
        omega
    have hmem : x ∈ m := by
      rw [hmtake, hterml, List.take_succ_cons]
      exact List.mem_cons_self _ _
    have hxl : Char.toLower x = x := by
      rcases hx with rfl | rfl
      · decide
      · decide
    have hx97 : x.toNat < 97 := by
      rcases hx with rfl | rfl
      · decide
      · decide
    have := term_mem_of_lower hlow hxl hx97 hmem
    rcases hx with rfl | rfl
    · exact ((bracketFree_iff term).1 hbf _ this).1 rfl
    · exact ((bracketFree_iff term).1 hbf _ this).2 rfl

theorem matchAt_none_digits (term : List Char) (hne : term ≠ [])
    (hbf : bracketFree term = true) (hnd : hasNonDigit term = true) (pw : Bool)
    (dl : List Char) (hdl : ∀ c ∈ dl, c.isDigit = true) (w : List Char) :
    matchAt term pw (dl ++ '>' :: w) = none := by
  cases hm : matchAt term pw (dl ++ '>' :: w) with
  | none => rfl
  | some pr =>
    exfalso
    obtain ⟨m, rest⟩ := pr
    obtain ⟨hsplit, hmtake, hrest, hlow, hlen⟩ := matchAt_some term pw _ _ _ hm
    by_cases hle : term.length ≤ dl.length
    · have hmdl : m = dl.take term.length := by
        rw [hmtake, List.take_append_of_le_length hle]
      have hmdig : ∀ c ∈ m, c.isDigit = true := by
        intro c hc
        exact hdl c (List.mem_of_mem_take (by rw [← hmdl]; exact hc))
      obtain ⟨tc, htc, htcnd⟩ := List.any_eq_true.1 hnd
      rw [Bool.not_eq_true'] at htcnd
      have h1 : Char.toLower tc ∈ lowerStr m := by
        rw [hlow]
        exact List.mem_map_of_mem _ htc
      rcases List.mem_map.1 h1 with ⟨mc, hmc, heq⟩
      have hmcdig := hmdig mc hmc
      rw [toLower_digit hmcdig] at heq
      rw [digit_of_toLower_digit hmcdig heq.symm] at htcnd
      rw [hmcdig] at htcnd
      cases htcnd
    · push_neg at hle
      have hmem : '>' ∈ m := by
        rw [hmtake, List.take_append_eq_append_take,
          List.take_of_length_le (Nat.le_of_lt hle)]
        refine List.mem_append.2 (Or.inr ?_)
        have hk : term.length - dl.length = (term.length - dl.length - 1) + 1 := by
          omega
        rw [hk, List.take_succ_cons]
        exact List.mem_cons_self _ _
      have := term_mem_of_lower hlow (by decide) (by decide) hmem
      exact ((bracketFree_iff term).1 hbf '>' this).2 rfl

/-- One segment of a decomposition of a text: either untouched original
characters, or the matched original occurrence occ that a term's round
replaced by the term's placeholder. -/
inductive Seg
  | orig (u : List Char)
  | ph (t : Term) (occ : List Char)
deriving DecidableEq, Repr

/-- The original text of a decomposition. -/
def renderOrig : List Seg → List Char
  | [] => []
  | .orig u :: bs => u ++ renderOrig bs
  | .ph _ occ :: bs => occ ++ renderOrig bs

/-- The placeholder text of a decomposition. -/
def renderPh : List Seg → List Char
  | [] => []
  | .orig u :: bs => u ++ renderPh bs
  | .ph t _ :: bs => placeholder t.id ++ renderPh bs

/-- The final text of a decomposition: every matched occurrence carries its
term's translation, all other characters are unchanged. -/
def renderTr : List Seg → List Char
  | [] => []
  | .orig u :: bs => u ++ renderTr bs
  | .ph t _ :: bs => t.translation ++ renderTr bs

/-- The partially restored text during postprocess: placeholders whose ids
are already replaced carry translations. -/
def renderMix (done : List Int) : List Seg → List Char
  | [] => []
  | .orig u :: bs => u ++ renderMix done bs
  | .ph t _ :: bs =>
    (if t.id ∈ done then t.translation else placeholder t.id) ++ renderMix done bs

theorem renderOrig_append (xs ys : List Seg) :
    renderOrig (xs ++ ys) = renderOrig xs ++ renderOrig ys := by
  induction xs with
  | nil => rfl
  | cons x xs ih =>
    cases x with
    | orig u => rw [List.cons_append, renderOrig, renderOrig, ih, List.append_assoc]
    | ph t occ => rw [List.cons_append, renderOrig, renderOrig, ih, List.append_assoc]

theorem renderPh_append (xs ys : List Seg) :
    renderPh (xs ++ ys) = renderPh xs ++ renderPh ys := by
  induction xs with
  | nil => rfl
  | cons x xs ih =>
    cases x with
    | orig u => rw [List.cons_append, renderPh, renderPh, ih, List.append_assoc]
    | ph t occ => rw [List.cons_append, renderPh, renderPh, ih, List.append_assoc]

theorem renderTr_append (xs ys : List Seg) :
    renderTr (xs ++ ys) = renderTr xs ++ renderTr ys := by
  induction xs with
  | nil => rfl
  | cons x xs ih =>
    cases x with
    | orig u => rw [List.cons_append, renderTr, renderTr, ih, List.append_assoc]
    | ph t occ => rw [List.cons_append, renderTr, renderTr, ih, List.append_assoc]

theorem renderMix_append (done : List Int) (xs ys : List Seg) :
    renderMix done (xs ++ ys) = renderMix done xs ++ renderMix done ys := by
  induction xs with
  | nil => rfl
  | cons x xs ih =>
    cases x with
    | orig u => rw [List.cons_append, renderMix, renderMix, ih, List.append_assoc]
    | ph t occ => rw [List.cons_append, renderMix, renderMix, ih, List.append_assoc]

/-- Original segments never directly follow one another (a placeholder or
the end of the list follows every original segment). -/
inductive Sep : List Seg → Prop
  | nil : Sep []
  | ph (t : Term) (occ : List Char) (bs : List Seg) : Sep bs → Sep (.ph t occ :: bs)
  | orig_nil (u : List Char) : Sep [.orig u]
  | orig_ph (u : List Char) (t : Term) (occ : List Char) (bs : List Seg) :
      Sep (.ph t occ :: bs) → Sep (.orig u :: .ph t occ :: bs)

theorem Sep_append_ph (xs ys : List Seg) (hx : Sep xs) (hy : Sep ys)
    (hhead : ys = [] ∨ ∃ t occ ys', ys = .ph t occ :: ys') : Sep (xs ++ ys) := by
  induction hx with
  | nil => exact hy
  | ph t occ bs hbs ih => exact Sep.ph t occ _ ih
  | orig_nil u =>
    rcases hhead with rfl | ⟨t, occ, ys', rfl⟩
    · exact Sep.orig_nil u
    · exact Sep.orig_ph u t occ ys' hy
  | orig_ph u t occ bs hbs ih => exact Sep.orig_ph u t occ _ ih

/-- Prepend an original character to a decomposition, merging it into a
leading original segment. -/
def consOrig (c : Char) : List Seg → List Seg
  | .orig u :: bs => .orig (c :: u) :: bs
  | bs => .orig [c] :: bs

theorem renderOrig_consOrig (c : Char) (bs : List Seg) :
    renderOrig (consOrig c bs) = c :: renderOrig bs := by
  cases bs with
  | nil => rfl
  | cons x bs =>
    cases x with
    | orig u => rfl
    | ph t occ => rfl

theorem renderPh_consOrig (c : Char) (bs : List Seg) :
    renderPh (consOrig c bs) = c :: renderPh bs := by
  cases bs with
  | nil => rfl
  | cons x bs =>
    cases x with
    | orig u => rfl
    | ph t occ => rfl

theorem Sep_consOrig (c : Char) (bs : List Seg) (h : Sep bs) : Sep (consOrig c bs) := by
  cases h with
  | nil => exact Sep.orig_nil [c]
  | ph t occ bs hbs => exact Sep.orig_ph [c] t occ bs (Sep.ph t occ bs hbs)
  | orig_nil u => exact Sep.orig_nil (c :: u)
  | orig_ph u t occ bs hbs => exact Sep.orig_ph (c :: u) t occ bs hbs

theorem mem_consOrig_ph (c : Char) (bs : List Seg) (t : Term) (occ : List Char) :
    Seg.ph t occ ∈ consOrig c bs ↔ Seg.ph t occ ∈ bs := by
  cases bs with
  | nil => simp [consOrig]
  | cons x bs =>
    cases x with
    | orig u => simp [consOrig]
    | ph t' occ' => simp [consOrig]

theorem mem_consOrig_orig (c : Char) (bs : List Seg) (seg : Seg) (hm : seg ∈ consOrig c bs)
    (v : List Char) (hv : seg = .orig v) : ∀ x ∈ v, x = c ∨ ∃ v', .orig v' ∈ bs ∧ x ∈ v' := by
  subst hv
  cases bs with
  | nil =>
    simp only [consOrig] at hm
    rw [List.mem_singleton] at hm
    cases hm
    intro x hx
    rw [List.mem_singleton] at hx
    exact Or.inl hx
  | cons b bs =>
    cases b with
    | orig u =>
      simp only [consOrig] at hm
      rcases List.mem_cons.1 hm with hm | hm
      · cases hm
        intro x hx
        rcases List.mem_cons.1 hx with hx | hx
        · exact Or.inl hx
        · exact Or.inr ⟨u, List.mem_cons_self _ _, hx⟩
      · intro x hx
        exact Or.inr ⟨v, List.mem_cons_of_mem _ hm, hx⟩
    | ph t occ =>
      simp only [consOrig] at hm
      rcases List.mem_cons.1 hm with hm | hm
      · cases hm
        intro x hx
        rw [List.mem_singleton] at hx
        exact Or.inl hx
      · intro x hx
        exact Or.inr ⟨v, hm, hx⟩

/-- The segment decomposition that one term's substitution round induces on
a text. -/
def segScan (t : Term) : Nat → Bool → List Char → List Seg
  | 0, _, _ => []
  | _ + 1, _, [] => []
  | fuel + 1, pw, c :: cs =>
    match matchAt t.term pw (c :: cs) with
    | some ([], _) => []
    | some (m, rest) => .ph t m :: segScan t fuel (wordAfter true m) rest
    | none => consOrig c (segScan t fuel (isWordChar c) cs)

theorem segScan_succ_nil (t : Term) (fuel : Nat) (pw : Bool) :
    segScan t (fuel + 1) pw [] = [] := by
  conv_lhs => unfold segScan

theorem segScan_cons_none (t : Term) (fuel : Nat) (pw : Bool) (c : Char) (cs : List Char)
    (h : matchAt t.term pw (c :: cs) = none) :
    segScan t (fuel + 1) pw (c :: cs) = consOrig c (segScan t fuel (isWordChar c) cs) := by
  conv_lhs => unfold segScan
  simp only [h]

theorem segScan_cons_empty (t : Term) (fuel : Nat) (pw : Bool) (c : Char) (cs : List Char)
    (rest : List Char) (h : matchAt t.term pw (c :: cs) = some ([], rest)) :
    segScan t (fuel + 1) pw (c :: cs) = [] := by
  conv_lhs => unfold segScan
  simp only [h]

theorem segScan_cons_match (t : Term) (fuel : Nat) (pw : Bool) (c c' : Char)
    (cs m'' rest : List Char)
    (h : matchAt t.term pw (c :: cs) = some (c' :: m'', rest)) :
    segScan t (fuel + 1) pw (c :: cs) =
      .ph t (c' :: m'') :: segScan t fuel (wordAfter true (c' :: m'')) rest := by
  conv_lhs => unfold segScan
  simp only [h]

theorem segScan_renderOrig (t : Term) (hterm : t.term ≠ []) :
    ∀ (fuel : Nat) (pw : Bool) (u : List Char), u.length < fuel →
      renderOrig (segScan t fuel pw u) = u := by
  intro fuel
  induction fuel with
  | zero =>
    intro pw u hf
    exact absurd hf (Nat.not_lt_zero _)
  | succ fuel ih =>
    intro pw u hf
    cases u with
    | nil => rw [segScan_succ_nil]; rfl
    | cons c cs =>
      cases hm : matchAt t.term pw (c :: cs) with
      | none =>
        rw [segScan_cons_none t fuel pw c cs hm, renderOrig_consOrig,
          ih (isWordChar c) cs (by rw [List.length_cons] at hf; omega)]
      | some pr =>
        obtain ⟨m, rest⟩ := pr
        obtain ⟨hsplit, -, -, hlow, hlen⟩ := matchAt_some t.term pw _ _ _ hm
        cases m with
        | nil =>
          exfalso
          rw [List.length_nil] at hlen
          exact hterm (List.eq_nil_of_length_eq_zero hlen.symm)
        | cons c' m'' =>
          have hrest : rest.length < fuel := by
            have := congrArg List.length hsplit
            rw [List.length_cons, List.length_append, List.length_cons] at this
            rw [List.length_cons] at hf
            omega
          rw [segScan_cons_match t fuel pw c c' cs m'' rest hm, renderOrig,
            ih (wordAfter true (c' :: m'')) rest hrest, hsplit]

theorem segScan_renderPh (t : Term) (hterm : t.term ≠ []) :
    ∀ (fuel : Nat) (pw : Bool) (u : List Char) (pos : Nat), u.length < fuel →
      renderPh (segScan t fuel pw u) =
        (subScan t.term (placeholder t.id) fuel pw u pos).1 := by
  intro fuel
  induction fuel with
  | zero =>
    intro pw u pos hf
    exact absurd hf (Nat.not_lt_zero _)
  | succ fuel ih =>
    intro pw u pos hf
    have hie : t.term.isEmpty = false := by
      cases hie : t.term.isEmpty
      · rfl
      · exact absurd (List.isEmpty_iff.1 hie) hterm
    cases u with
    | nil =>
      rw [segScan_succ_nil, subScan_succ_nil, hie]
      rfl
    | cons c cs =>
      cases hm : matchAt t.term pw (c :: cs) with
      | none =>
        rw [segScan_cons_none t fuel pw c cs hm, renderPh_consOrig,
          subScan_cons_none t.term (placeholder t.id) fuel pw c cs pos hm,
          ih (isWordChar c) cs (pos + 1) (by rw [List.length_cons] at hf; omega)]
      | some pr =>
        obtain ⟨m, rest⟩ := pr
        obtain ⟨hsplit, -, -, hlow, hlen⟩ := matchAt_some t.term pw _ _ _ hm
        cases m with
        | nil =>
          exfalso
          rw [List.length_nil] at hlen
          exact hterm (List.eq_nil_of_length_eq_zero hlen.symm)
        | cons c' m'' =>
          have hrest : rest.length < fuel := by
            have := congrArg List.length hsplit
            rw [List.length_cons, List.length_append, List.length_cons] at this
            rw [List.length_cons] at hf
            omega
          rw [segScan_cons_match t fuel pw c c' cs m'' rest hm, renderPh,
            subScan_cons_match t.term (placeholder t.id) fuel pw c c' cs m'' pos rest hm,
            ih (wordAfter true (c' :: m'')) rest (pos + (c' :: m'').length) hrest]

theorem segScan_flag (t : Term) (hterm : t.term ≠ []) :
    ∀ (fuel : Nat) (pw : Bool) (u : List Char) (pos : Nat), u.length < fuel →
      ((subScan t.term (placeholder t.id) fuel pw u pos).2 = [] ↔
        ∀ occ, Seg.ph t occ ∉ segScan t fuel pw u) := by
  intro fuel
  induction fuel with
  | zero =>
    intro pw u pos hf
    exact absurd hf (Nat.not_lt_zero _)
  | succ fuel ih =>
    intro pw u pos hf
    have hie : t.term.isEmpty = false := by
      cases hie : t.term.isEmpty
      · rfl
      · exact absurd (List.isEmpty_iff.1 hie) hterm
    cases u with
    | nil =>
      rw [segScan_succ_nil, subScan_succ_nil, hie]
      simp
    | cons c cs =>
      cases hm : matchAt t.term pw (c :: cs) with
      | none =>
        rw [segScan_cons_none t fuel pw c cs hm,
          subScan_cons_none t.term (placeholder t.id) fuel pw c cs pos hm]
        rw [ih (isWordChar c) cs (pos + 1) (by rw [List.length_cons] at hf; omega)]
        constructor
        · intro h occ hc
          exact h occ ((mem_consOrig_ph c _ t occ).1 hc)
        · intro h occ hc
          exact h occ ((mem_consOrig_ph c _ t occ).2 hc)
      | some pr =>
        obtain ⟨m, rest⟩ := pr
        obtain ⟨hsplit, -, -, hlow, hlen⟩ := matchAt_some t.term pw _ _ _ hm
        cases m with
        | nil =>
          exfalso
          rw [List.length_nil] at hlen
          exact hterm (List.eq_nil_of_length_eq_zero hlen.symm)
        | cons c' m'' =>
          rw [segScan_cons_match t fuel pw c c' cs m'' rest hm,
            subScan_cons_match t.term (placeholder t.id) fuel pw c c' cs m'' pos rest hm]
          constructor
          · intro h
            cases h
          · intro h
            exact absurd (List.mem_cons_self _ _) (h (c' :: m''))

theorem segScan_ph_shape (t : Term) (hterm : t.term ≠ []) :
    ∀ (fuel : Nat) (pw : Bool) (u : List Char) (t' : Term) (occ : List Char),
      Seg.ph t' occ ∈ segScan t fuel pw u →
        t' = t ∧ lowerStr occ = lowerStr t.term ∧ occ ≠ [] := by
  intro fuel
  induction fuel with
  | zero =>
    intro pw u t' occ h
    cases h
  | succ fuel ih =>
    intro pw u t' occ h
    cases u with
    | nil =>
      rw [segScan_succ_nil] at h
      cases h
    | cons c cs =>
      cases hm : matchAt t.term pw (c :: cs) with
      | none =>
        rw [segScan_cons_none t fuel pw c cs hm] at h
        exact ih (isWordChar c) cs t' occ ((mem_consOrig_ph c _ t' occ).1 h)
      | some pr =>
        obtain ⟨m, rest⟩ := pr
        obtain ⟨hsplit, -, -, hlow, hlen⟩ := matchAt_some t.term pw _ _ _ hm
        cases m with
        | nil =>
          exfalso
          rw [List.length_nil] at hlen
          exact hterm (List.eq_nil_of_length_eq_zero hlen.symm)
        | cons c' m'' =>
          rw [segScan_cons_match t fuel pw c c' cs m'' rest hm] at h
          rcases List.mem_cons.1 h with h | h
          · cases h
            exact ⟨rfl, hlow, List.cons_ne_nil _ _⟩
          · exact ih (wordAfter true (c' :: m'')) rest t' occ h

theorem segScan_Sep (t : Term) :
    ∀ (fuel : Nat) (pw : Bool) (u : List Char), Sep (segScan t fuel pw u) := by
  intro fuel
  induction fuel with
  | zero =>
    intro pw u
    exact Sep.nil
  | succ fuel ih =>
    intro pw u
    cases u with
    | nil =>
      rw [segScan_succ_nil]
      exact Sep.nil
    | cons c cs =>
      cases hm : matchAt t.term pw (c :: cs) with
      | none =>
        rw [segScan_cons_none t fuel pw c cs hm]
        exact Sep_consOrig c _ (ih (isWordChar c) cs)
      | some pr =>
        obtain ⟨m, rest⟩ := pr
        cases m with
        | nil =>
          rw [segScan_cons_empty t fuel pw c cs rest hm]
          exact Sep.nil
        | cons c' m'' =>
          rw [segScan_cons_match t fuel pw c c' cs m'' rest hm]
          exact Sep.ph t _ _ (ih (wordAfter true (c' :: m'')) rest)

theorem mem_orig_render (bs : List Seg) (v : List Char) :
    Seg.orig v ∈ bs → ∀ c ∈ v, c ∈ renderOrig bs := by
  induction bs with
  | nil =>
    intro h
    cases h
  | cons b bs ih =>
    intro h c hc
    rcases List.mem_cons.1 h with h1 | h1
    · subst h1
      rw [renderOrig]
      exact List.mem_append.2 (Or.inl hc)
    · cases b with
      | orig u =>
        rw [renderOrig]
        exact List.mem_append.2 (Or.inr (ih h1 c hc))
      | ph t occ =>
        rw [renderOrig]
        exact List.mem_append.2 (Or.inr (ih h1 c hc))

theorem natStr_digits (n : Nat) : ∀ c ∈ natStr n, c.isDigit = true :=
  natStrAux_digits (n + 1) n

theorem digit_ne_bracket {c : Char} (h : c.isDigit = true) : c ≠ '<' ∧ c ≠ '>' := by
  constructor
  · intro hc
    rw [hc] at h
    exact absurd h (by decide)
  · intro hc
    rw [hc] at h
    exact absurd h (by decide)

theorem intStr_ne_bracket (i : Int) : ∀ c ∈ intStr i, c ≠ '<' ∧ c ≠ '>' := by
  cases i with
  | ofNat n =>
    intro c hc
    exact digit_ne_bracket (natStr_digits n c hc)
  | negSucc n =>
    intro c hc
    rcases List.mem_cons.1 hc with hc | hc
    · subst hc
      exact ⟨by decide, by decide⟩
    · exact digit_ne_bracket (natStr_digits (n + 1) c hc)

theorem matchAt_none_nonword_start (term : List Char) (hne : term ≠ []) (c : Char)
    (hc : isWordChar c = false) (w : List Char) :
    matchAt term false (c :: w) = none := by
  cases hm : matchAt term false (c :: w) with
  | none => rfl
  | some pr =>
    exfalso
    obtain ⟨m, rest⟩ := pr
    obtain ⟨hsplit, hmtake, hrest, hlow, hlen⟩ := matchAt_some term false _ _ _ hm
    have hbnd := matchAt_some_boundary term false _ _ _ hm
    have hterml : term.length = (term.length - 1) + 1 := by
      cases term with
      | nil => exact absurd rfl hne
      | cons t ts =>
        rw [List.length_cons]
        omega
    rw [hterml, List.take_succ_cons] at hmtake
    cases m with
    | nil => cases hmtake
    | cons c0 m'' =>
      have hc0 : c0 = c := (List.cons.inj hmtake).1
      dsimp only at hbnd
      rw [hc0, hc] at hbnd
      cases hbnd

theorem subScan_pw_bracket (term repl : List Char) (hne : term ≠ [])
    (hbf : bracketFree term = true) (fuel : Nat) (pw1 pw2 : Bool) (v : List Char)
    (pos : Nat) (hv : v = [] ∨ ∃ w, v = '<' :: w) :
    subScan term repl fuel pw1 v pos = subScan term repl fuel pw2 v pos := by
  have hie : term.isEmpty = false := by
    cases hie : term.isEmpty
    · rfl
    · exact absurd (List.isEmpty_iff.1 hie) hne
  cases fuel with
  | zero => rfl
  | succ fuel =>
    rcases hv with rfl | ⟨w, rfl⟩
    · rw [subScan_succ_nil, subScan_succ_nil, hie]
      rfl
    · rw [subScan_cons_none term repl fuel pw1 '<' w pos
          (matchAt_none_head term hne hbf pw1 '<' (Or.inl rfl) w),
        subScan_cons_none term repl fuel pw2 '<' w pos
          (matchAt_none_head term hne hbf pw2 '<' (Or.inl rfl) w)]

theorem scan_digit_run (term repl : List Char) (hne : term ≠ [])
    (hbf : bracketFree term = true) (hnd : hasNonDigit term = true) :
    ∀ (fuel : Nat) (dl : List Char), (∀ c ∈ dl, c.isDigit = true) →
      ∀ (pw : Bool) (w : List Char) (pos : Nat), (dl ++ '>' :: w).length < fuel →
      subScan term repl fuel pw (dl ++ '>' :: w) pos =
        ((dl ++ '>' :: (subScan term repl fuel false w (pos + dl.length + 1)).1),
          (subScan term repl fuel false w (pos + dl.length + 1)).2) := by
  intro fuel
  induction fuel with
  | zero =>
    intro dl hdl pw w pos hf
    exact absurd hf (Nat.not_lt_zero _)
  | succ fuel ih =>
    intro dl hdl pw w pos hf
    have hwlen : w.length < fuel := by
      rw [List.length_append, List.length_cons] at hf
      omega
    cases dl with
    | nil =>
      rw [List.nil_append,
        subScan_cons_none term repl fuel pw '>' w pos
          (matchAt_none_head term hne hbf pw '>' (Or.inr rfl) w),
        show isWordChar '>' = false from rfl,
        subScan_fuel term repl fuel (fuel + 1) false w (pos + 1) hwlen
          (Nat.lt_succ_of_lt hwlen)]
      have harith : pos + 1 = pos + List.length ([] : List Char) + 1 := by
        rw [List.length_nil]
      rw [← harith]
      rfl
    | cons d dl' =>
      have hmm : matchAt term pw ((d :: dl') ++ '>' :: w) = none :=
        matchAt_none_digits term hne hbf hnd pw (d :: dl') hdl w
      rw [List.cons_append] at hmm ⊢
      rw [subScan_cons_none term repl fuel pw d (dl' ++ '>' :: w) pos hmm]
      have hlen' : (dl' ++ '>' :: w).length < fuel := by
        rw [List.length_append, List.length_cons] at hf ⊢
        rw [List.length_cons] at hf
        omega
      rw [ih dl' (fun c hc => hdl c (List.mem_cons_of_mem d hc)) (isWordChar d) w
          (pos + 1) hlen']
      rw [subScan_fuel term repl fuel (fuel + 1) false w (pos + 1 + dl'.length + 1)
          hwlen (Nat.lt_succ_of_lt hwlen)]
      have harith : pos + 1 + dl'.length + 1 = pos + (d :: dl').length + 1 := by
        rw [List.length_cons]
        omega
      rw [harith]
      rfl

theorem placeholder_length_ofNat (n : Nat) :
    (placeholder (Int.ofNat n)).length = (natStr n).length + 2 := by
  unfold placeholder intStr
  simp [List.length_append]

theorem placeholder_length_negSucc (n : Nat) :
    (placeholder (Int.negSucc n)).length = (natStr (n + 1)).length + 3 := by
  unfold placeholder intStr
  simp [List.length_append]

theorem scan_ph (term repl : List Char) (hne : term ≠ [])
    (hbf : bracketFree term = true) (hnd : hasNonDigit term = true) :
    ∀ (fuel : Nat) (j : Int) (pw : Bool) (w : List Char) (pos : Nat),
      (placeholder j ++ w).length < fuel →
      subScan term repl fuel pw (placeholder j ++ w) pos =
        ((placeholder j ++
            (subScan term repl fuel false w (pos + (placeholder j).length)).1),
          (subScan term repl fuel false w (pos + (placeholder j).length)).2) := by
  intro fuel j pw w pos hf
  have hwlen : w.length < fuel := by
    rw [List.length_append] at hf
    omega
  cases j with
  | ofNat n =>
    have hass : ∀ (A : List Char),
        placeholder (Int.ofNat n) ++ A = '<' :: (natStr n ++ '>' :: A) := by
      intro A
      unfold placeholder intStr
      simp [List.append_assoc]
    have hflen : (natStr n).length + 2 + w.length < fuel := by
      rw [List.length_append, placeholder_length_ofNat] at hf
      omega
    cases fuel with
    | zero => exact absurd hf (Nat.not_lt_zero _)
    | succ fuel =>
      rw [hass,
        subScan_cons_none term repl fuel pw '<' (natStr n ++ '>' :: w) pos
          (matchAt_none_head term hne hbf pw '<' (Or.inl rfl) _),
        show isWordChar '<' = false from rfl,
        scan_digit_run term repl hne hbf hnd fuel (natStr n) (natStr_digits n)
          false w (pos + 1) (by rw [List.length_append, List.length_cons]; omega)]
      have hwf : w.length < fuel := by omega
      rw [subScan_fuel term repl fuel (fuel + 1) false w
          (pos + 1 + (natStr n).length + 1) hwf (Nat.lt_succ_of_lt hwf)]
      have harith : pos + 1 + (natStr n).length + 1 =
          pos + (placeholder (Int.ofNat n)).length := by
        rw [placeholder_length_ofNat]
        omega
      rw [harith, hass]
  | negSucc n =>
    have hass : ∀ (A : List Char),
        placeholder (Int.negSucc n) ++ A = '<' :: '-' :: (natStr (n + 1) ++ '>' :: A) := by
      intro A
      unfold placeholder intStr
      simp [List.append_assoc]
    have hflen : (natStr (n + 1)).length + 3 + w.length < fuel := by
      rw [List.length_append, placeholder_length_negSucc] at hf
      omega
    cases fuel with
    | zero => exact absurd hf (Nat.not_lt_zero _)
    | succ fuel =>
      cases fuel with
      | zero => omega
      | succ fuel =>
        rw [hass,
          subScan_cons_none term repl (fuel + 1) pw '<'
            ('-' :: (natStr (n + 1) ++ '>' :: w)) pos
            (matchAt_none_head term hne hbf pw '<' (Or.inl rfl) _),
          show isWordChar '<' = false from rfl,
          subScan_cons_none term repl fuel false '-' (natStr (n + 1) ++ '>' :: w)
            (pos + 1)
            (matchAt_none_nonword_start term hne '-' (by decide) _),
          show isWordChar '-' = false from rfl,
          scan_digit_run term repl hne hbf hnd fuel (natStr (n + 1))
            (natStr_digits (n + 1)) false w (pos + 1 + 1)
            (by rw [List.length_append, List.length_cons]; omega)]
        have hwf : w.length < fuel := by omega
        rw [subScan_fuel term repl fuel (fuel + 2) false w
            (pos + 1 + 1 + (natStr (n + 1)).length + 1) hwf (by omega)]
        have harith : pos + 1 + 1 + (natStr (n + 1)).length + 1 =
            pos + (placeholder (Int.negSucc n)).length := by
          rw [placeholder_length_negSucc]
          omega
        rw [harith, hass]

theorem subScan_append (term repl : List Char) (hne : term ≠ [])
    (hbf : bracketFree term = true) :
    ∀ (fuel : Nat) (pw : Bool) (u v : List Char) (pos : Nat),
      (v = [] ∨ ∃ w, v = '<' :: w) →
      u.length + v.length < fuel →
      subScan term repl fuel pw (u ++ v) pos =
        ((subScan term repl fuel pw u pos).1 ++
          (subScan term repl fuel (wordAfter pw u) v (pos + u.length)).1,
         (subScan term repl fuel pw u pos).2 ++
          (subScan term repl fuel (wordAfter pw u) v (pos + u.length)).2) := by
  have hie : term.isEmpty = false := by
    cases hie : term.isEmpty
    · rfl
    · exact absurd (List.isEmpty_iff.1 hie) hne
  intro fuel
  induction fuel with
  | zero =>
    intro pw u v pos hv hf
    exact absurd hf (Nat.not_lt_zero _)
  | succ fuel ih =>
    intro pw u v pos hv hf
    cases u with
    | nil =>
      have h1 : subScan term repl (fuel + 1) pw [] pos = ([], []) := by
        rw [subScan_succ_nil, hie]
        rfl
      rw [List.nil_append, h1]
      rfl
    | cons c cs =>
      cases hmu : matchAt term pw (c :: cs) with
      | none =>
        have hmuv : matchAt term pw (c :: (cs ++ v)) = none := by
          rw [← List.cons_append, matchAt_append term hne hbf pw (c :: cs) v hv, hmu]
          rfl
        have hvlen : v.length < fuel := by
          rw [List.length_cons] at hf
          omega
        rw [List.cons_append,
          subScan_cons_none term repl fuel pw c (cs ++ v) pos hmuv,
          ih (isWordChar c) cs v (pos + 1) hv
            (by rw [List.length_cons] at hf; omega),
          subScan_cons_none term repl fuel pw c cs pos hmu,
          subScan_fuel term repl fuel (fuel + 1) (wordAfter (isWordChar c) cs) v
            (pos + 1 + cs.length) hvlen (Nat.lt_succ_of_lt hvlen)]
        have hw2 : wordAfter (isWordChar c) cs = wordAfter pw (c :: cs) := by
          rw [wordAfter_cons]
        have hp2 : pos + 1 + cs.length = pos + (c :: cs).length := by
          rw [List.length_cons]
          omega
        rw [hw2, hp2]
        rfl
      | some pr =>
        obtain ⟨m, rest⟩ := pr
        obtain ⟨hsplit, -, -, -, hlen⟩ := matchAt_some term pw _ _ _ hmu
        cases m with
        | nil =>
          exfalso
          rw [List.length_nil] at hlen
          exact hne (List.eq_nil_of_length_eq_zero hlen.symm)
        | cons c' m'' =>
          have hmuv : matchAt term pw (c :: (cs ++ v)) = some (c' :: m'', rest ++ v) := by
            rw [← List.cons_append, matchAt_append term hne hbf pw (c :: cs) v hv, hmu]
            rfl
          have hlens : (c :: cs).length = (c' :: m'').length + rest.length := by
            rw [hsplit, List.length_append]
          have hrlen : rest.length + v.length < fuel := by
            rw [List.length_cons] at hf
            rw [List.length_cons] at hlens
            rw [List.length_cons] at hlens
            omega
          have hvlen : v.length < fuel := by
            omega
          rw [List.cons_append,
            subScan_cons_match term repl fuel pw c c' (cs ++ v) m'' pos (rest ++ v) hmuv,
            ih (wordAfter true (c' :: m'')) rest v (pos + (c' :: m'').length) hv hrlen,
            subScan_cons_match term repl fuel pw c c' cs m'' pos rest hmu,
            subScan_fuel term repl fuel (fuel + 1) (wordAfter (wordAfter true (c' :: m'')) rest)
              v (pos + (c' :: m'').length + rest.length) hvlen (Nat.lt_succ_of_lt hvlen)]
          have hw2 : wordAfter (wordAfter true (c' :: m'')) rest = wordAfter pw (c :: cs) := by
            rw [hsplit, wordAfter_append,
              wordAfter_irrel pw true (c' :: m'') (List.cons_ne_nil c' m'')]
          have hp2 : pos + (c' :: m'').length + rest.length = pos + (c :: cs).length := by
            rw [hlens]
            omega
          rw [hw2, hp2]
          refine Prod.ext ?_ ?_
          · show repl ++ (_ ++ _) = (repl ++ _) ++ _
            rw [List.append_assoc]
          · show pos :: (_ ++ _) = (pos :: _) ++ _
            rw [List.cons_append]

theorem segScan_fuel (t : Term) (hne : t.term ≠ []) :
    ∀ (f1 : Nat), ∀ (f2 : Nat) (pw : Bool) (u : List Char),
      u.length < f1 → u.length < f2 →
      segScan t f1 pw u = segScan t f2 pw u := by
  intro f1
  induction f1 with
  | zero =>
    intro f2 pw u h1 h2
    exact absurd h1 (Nat.not_lt_zero _)
  | succ f1 ih =>
    intro f2 pw u h1 h2
    cases f2 with
    | zero => exact absurd h2 (Nat.not_lt_zero _)
    | succ f2 =>
      cases u with
      | nil => rw [segScan_succ_nil, segScan_succ_nil]
      | cons c cs =>
        have hcs1 : cs.length < f1 := by
          rw [List.length_cons] at h1
          omega
        have hcs2 : cs.length < f2 := by
          rw [List.length_cons] at h2
          omega
        cases hm : matchAt t.term pw (c :: cs) with
        | none =>
          rw [segScan_cons_none t f1 pw c cs hm, segScan_cons_none t f2 pw c cs hm,
            ih f2 (isWordChar c) cs hcs1 hcs2]
        | some pr =>
          obtain ⟨m, rest⟩ := pr
          obtain ⟨hsplit, -, -, -, hlen⟩ := matchAt_some t.term pw _ _ _ hm
          cases m with
          | nil =>
            exfalso
            rw [List.length_nil] at hlen
            exact hne (List.eq_nil_of_length_eq_zero hlen.symm)
          | cons c' m'' =>
            have hr : rest.length < f1 ∧ rest.length < f2 := by
              have := congrArg List.length hsplit
              rw [List.length_cons, List.length_append, List.length_cons] at this
              omega
            rw [segScan_cons_match t f1 pw c c' cs m'' rest hm,
              segScan_cons_match t f2 pw c c' cs m'' rest hm,
              ih f2 (wordAfter true (c' :: m'')) rest hr.1 hr.2]

/-- The decomposition that one term's round refines an existing
decomposition into: placeholder segments stay, original segments are
decomposed by the term's scan. -/
def refineSegs (t : Term) : List Seg → List Seg
  | [] => []
  | .orig u :: bs => segScan t (u.length + 1) false u ++ refineSegs t bs
  | .ph t' occ :: bs => .ph t' occ :: refineSegs t bs

theorem Sep_refineSegs (t : Term) (bs : List Seg) (h : Sep bs) :
    Sep (refineSegs t bs) := by
  induction h with
  | nil => exact Sep.nil
  | ph t' occ bs hbs ih => exact Sep.ph t' occ _ ih
  | orig_nil u =>
    show Sep (segScan t (u.length + 1) false u ++ refineSegs t [])
    rw [show refineSegs t [] = [] from rfl, List.append_nil]
    exact segScan_Sep t _ false u
  | orig_ph u t' occ bs hbs ih =>
    show Sep (segScan t (u.length + 1) false u ++ (.ph t' occ :: refineSegs t bs))
    exact Sep_append_ph _ _ (segScan_Sep t _ false u) ih (Or.inr ⟨t', occ, _, rfl⟩)

theorem renderPh_ph_head (t' : Term) (occ : List Char) (bs : List Seg) :
    ∃ w, renderPh (.ph t' occ :: bs) = '<' :: w := by
  refine ⟨intStr t'.id ++ (['>'] ++ renderPh bs), ?_⟩
  show placeholder t'.id ++ renderPh bs = _
  unfold placeholder
  simp [List.append_assoc]

theorem scan_blocks (t : Term) (hne : t.term ≠ []) (hbf : bracketFree t.term = true)
    (hnd : hasNonDigit t.term = true) :
    ∀ (bs : List Seg), Sep bs → (∀ occ, Seg.ph t occ ∉ bs) →
      ∀ (fuel : Nat) (pos : Nat), (renderPh bs).length < fuel →
      (subScan t.term (placeholder t.id) fuel false (renderPh bs) pos).1 =
        renderPh (refineSegs t bs) ∧
      ((subScan t.term (placeholder t.id) fuel false (renderPh bs) pos).2 = [] ↔
        ∀ occ, Seg.ph t occ ∉ refineSegs t bs) := by
  have hie : t.term.isEmpty = false := by
    cases hie : t.term.isEmpty
    · rfl
    · exact absurd (List.isEmpty_iff.1 hie) hne
  intro bs hsep
  induction hsep with
  | nil =>
    intro hno fuel pos hf
    cases fuel with
    | zero => exact absurd hf (Nat.not_lt_zero _)
    | succ fuel =>
      rw [show renderPh [] = [] from rfl, subScan_succ_nil, hie]
      exact ⟨rfl, by simp [refineSegs]⟩
  | ph t' occ bs hbs ih =>
    intro hno fuel pos hf
    have hno' : ∀ occ', Seg.ph t occ' ∉ bs :=
      fun occ' hc => hno occ' (List.mem_cons_of_mem _ hc)
    have htne : t' ≠ t := by
      intro hc
      subst hc
      exact hno occ (List.mem_cons_self _ _)
    have hfb : (renderPh bs).length < fuel := by
      rw [show renderPh (Seg.ph t' occ :: bs) = placeholder t'.id ++ renderPh bs from rfl,
        List.length_append] at hf
      omega
    rw [show renderPh (Seg.ph t' occ :: bs) = placeholder t'.id ++ renderPh bs from rfl,
      scan_ph t.term (placeholder t.id) hne hbf hnd fuel t'.id false (renderPh bs) pos
        (by rw [show placeholder t'.id ++ renderPh bs =
            renderPh (Seg.ph t' occ :: bs) from rfl]; exact hf)]
    obtain ⟨h1, h2⟩ := ih hno' fuel (pos + (placeholder t'.id).length) hfb
    refine ⟨?_, ?_⟩
    · rw [h1]
      rfl
    · rw [h2]
      constructor
      · intro h occ' hc
        rcases List.mem_cons.1 hc with hc | hc
        · exact htne (Seg.ph.inj hc).1.symm
        · exact h occ' hc
      · intro h occ' hc
        exact h occ' (List.mem_cons_of_mem _ hc)
  | orig_nil u =>
    intro hno fuel pos hf
    have hfu : u.length < fuel := by
      rw [show renderPh [Seg.orig u] = u ++ renderPh [] from rfl,
        show renderPh ([] : List Seg) = [] from rfl, List.append_nil] at hf
      exact hf
    have hren : renderPh [Seg.orig u] = u := by
      rw [show renderPh [Seg.orig u] = u ++ renderPh [] from rfl,
        show renderPh ([] : List Seg) = [] from rfl, List.append_nil]
    have href : refineSegs t [Seg.orig u] = segScan t (u.length + 1) false u := by
      show segScan t (u.length + 1) false u ++ refineSegs t [] = _
      rw [show refineSegs t [] = [] from rfl, List.append_nil]
    rw [hren, href]
    refine ⟨?_, ?_⟩
    · rw [← segScan_renderPh t hne fuel false u pos hfu,
        segScan_fuel t hne fuel (u.length + 1) false u hfu (Nat.lt_succ_self _)]
    · rw [segScan_flag t hne fuel false u pos hfu,
        segScan_fuel t hne fuel (u.length + 1) false u hfu (Nat.lt_succ_self _)]
  | orig_ph u t' occ bs hbs ih =>
    intro hno fuel pos hf
    have hno' : ∀ occ', Seg.ph t occ' ∉ (Seg.ph t' occ :: bs) :=
      fun occ' hc => hno occ' (List.mem_cons_of_mem _ hc)
    obtain ⟨w, hw⟩ := renderPh_ph_head t' occ bs
    have hren : renderPh (Seg.orig u :: Seg.ph t' occ :: bs) =
        u ++ renderPh (Seg.ph t' occ :: bs) := rfl
    have hlentot : u.length + (renderPh (Seg.ph t' occ :: bs)).length < fuel := by
      rw [hren, List.length_append] at hf
      omega
    have hfu : u.length < fuel := by omega
    have hfv : (renderPh (Seg.ph t' occ :: bs)).length < fuel := by omega
    rw [hren,
      subScan_append t.term (placeholder t.id) hne hbf fuel false u
        (renderPh (Seg.ph t' occ :: bs)) pos (Or.inr ⟨w, hw⟩) hlentot,
      subScan_pw_bracket t.term (placeholder t.id) hne hbf fuel
        (wordAfter false u) false (renderPh (Seg.ph t' occ :: bs)) (pos + u.length)
        (Or.inr ⟨w, hw⟩)]
    obtain ⟨h1, h2⟩ := ih hno' fuel (pos + u.length) hfv
    have href : refineSegs t (Seg.orig u :: Seg.ph t' occ :: bs) =
        segScan t (u.length + 1) false u ++ refineSegs t (Seg.ph t' occ :: bs) := rfl
    refine ⟨?_, ?_⟩
    · rw [href, renderPh_append, h1,
        ← segScan_renderPh t hne fuel false u pos hfu,
        segScan_fuel t hne fuel (u.length + 1) false u hfu (Nat.lt_succ_self _)]
    · rw [href, List.append_eq_nil, h2,
        segScan_flag t hne fuel false u pos hfu,
        segScan_fuel t hne fuel (u.length + 1) false u hfu (Nat.lt_succ_self _)]
      constructor
      · intro h occ' hc
        rcases List.mem_append.1 hc with hc | hc
        · exact h.1 occ' hc
        · exact h.2 occ' hc
      · intro h
        exact ⟨fun occ' hc => h occ' (List.mem_append.2 (Or.inl hc)),
          fun occ' hc => h occ' (List.mem_append.2 (Or.inr hc))⟩

theorem renderOrig_refineSegs (t : Term) (hne : t.term ≠ []) (bs : List Seg) :
    renderOrig (refineSegs t bs) = renderOrig bs := by
  induction bs with
  | nil => rfl
  | cons b bs ih =>
    cases b with
    | orig u =>
      show renderOrig (segScan t (u.length + 1) false u ++ refineSegs t bs) = _
      rw [renderOrig_append, ih,
        segScan_renderOrig t hne (u.length + 1) false u (Nat.lt_succ_self _)]
      rfl
    | ph t' occ =>
      show occ ++ renderOrig (refineSegs t bs) = _
      rw [ih]
      rfl

theorem refine_ph_content (t : Term) (hne : t.term ≠ []) (bs : List Seg)
    (t' : Term) (occ : List Char) (h : Seg.ph t' occ ∈ refineSegs t bs) :
    Seg.ph t' occ ∈ bs ∨ (t' = t ∧ lowerStr occ = lowerStr t.term ∧ occ ≠ []) := by
  induction bs with
  | nil => cases h
  | cons b bs ih =>
    cases b with
    | orig u =>
      rcases List.mem_append.1 h with h1 | h1
      · exact Or.inr (segScan_ph_shape t hne _ false u t' occ h1)
      · rcases ih h1 with h2 | h2
        · exact Or.inl (List.mem_cons_of_mem _ h2)
        · exact Or.inr h2
    | ph t'' occ'' =>
      rcases List.mem_cons.1 h with h1 | h1
      · exact Or.inl (by rw [h1]; exact List.mem_cons_self _ _)
      · rcases ih h1 with h2 | h2
        · exact Or.inl (List.mem_cons_of_mem _ h2)
        · exact Or.inr h2

theorem refine_orig_content (t : Term) (hne : t.term ≠ []) (bs : List Seg)
    (v : List Char) (h : Seg.orig v ∈ refineSegs t bs) :
    ∀ c ∈ v, ∃ u, Seg.orig u ∈ bs ∧ c ∈ u := by
  induction bs with
  | nil => cases h
  | cons b bs ih =>
    cases b with
    | orig u =>
      rcases List.mem_append.1 h with h1 | h1
      · intro c hc
        have := mem_orig_render _ v h1 c hc
        rw [segScan_renderOrig t hne (u.length + 1) false u (Nat.lt_succ_self _)] at this
        exact ⟨u, List.mem_cons_self _ _, this⟩
      · intro c hc
        obtain ⟨u', hu', hcu'⟩ := ih h1 c hc
        exact ⟨u', List.mem_cons_of_mem _ hu', hcu'⟩
    | ph t'' occ'' =>
      rcases List.mem_cons.1 h with h1 | h1
      · cases h1
      · intro c hc
        obtain ⟨u', hu', hcu'⟩ := ih h1 c hc
        exact ⟨u', List.mem_cons_of_mem _ hu', hcu'⟩

/-- The text component of the preprocess fold. -/
def textFold : List Term → List Char → List Char
  | [], txt => txt
  | t :: ts, txt => textFold ts (subTerm t.term (placeholder t.id) txt).1

theorem foldl_preprocessStep_fst (ts : List Term) :
    ∀ (txt : List Char) (m : RepMap),
      (ts.foldl preprocessStep (txt, m)).1 = textFold ts txt := by
  induction ts with
  | nil =>
    intro txt m
    rfl
  | cons t ts ih =>
    intro txt m
    rw [List.foldl_cons]
    exact ih _ _

theorem textFold_blocks (ts : List Term)
    (hts : ∀ t' ∈ ts, t'.term ≠ [] ∧ bracketFree t'.term = true ∧
      hasNonDigit t'.term = true)
    (hnodup : ts.Nodup) :
    ∀ (bs : List Seg), Sep bs → (∀ v, Seg.orig v ∈ bs → bracketFree v = true) →
      (∀ t' occ, Seg.ph t' occ ∈ bs → t' ∉ ts) →
      ∃ bs' : List Seg,
        textFold ts (renderPh bs) = renderPh bs' ∧
        Sep bs' ∧
        renderOrig bs' = renderOrig bs ∧
        (∀ v, Seg.orig v ∈ bs' → bracketFree v = true) ∧
        (∀ t' occ, Seg.ph t' occ ∈ bs' →
          Seg.ph t' occ ∈ bs ∨
            (t' ∈ ts ∧ lowerStr occ = lowerStr t'.term ∧ occ ≠ [])) ∧
        (∀ t' occ, Seg.ph t' occ ∈ bs' →
          Seg.ph t' occ ∈ bs ∨ t' ∈ matchedOf ts (renderPh bs)) := by
  induction ts with
  | nil =>
    intro bs hsep hbf hph
    exact ⟨bs, rfl, hsep, rfl, hbf, fun t' occ h => Or.inl h, fun t' occ h => Or.inl h⟩
  | cons t ts ih =>
    intro bs hsep hbf hph
    obtain ⟨hne, hbft, hndt⟩ := hts t (List.mem_cons_self _ _)
    have hts' : ∀ t' ∈ ts, t'.term ≠ [] ∧ bracketFree t'.term = true ∧
        hasNonDigit t'.term = true :=
      fun t' h => hts t' (List.mem_cons_of_mem _ h)
    have hnodup' : ts.Nodup := (List.nodup_cons.1 hnodup).2
    have htnotts : t ∉ ts := (List.nodup_cons.1 hnodup).1
    have hno : ∀ occ, Seg.ph t occ ∉ bs :=
      fun occ hc => hph t occ hc (List.mem_cons_self _ _)
    obtain ⟨hstage1, hflag1⟩ := scan_blocks t hne hbft hndt bs hsep hno
      ((renderPh bs).length + 1) 0 (Nat.lt_succ_self _)
    have hsub1 : (subTerm t.term (placeholder t.id) (renderPh bs)).1 =
        renderPh (refineSegs t bs) := hstage1
    have hsub2 : ((subTerm t.term (placeholder t.id) (renderPh bs)).2 = [] ↔
        ∀ occ, Seg.ph t occ ∉ refineSegs t bs) := hflag1
    have hsep1 : Sep (refineSegs t bs) := Sep_refineSegs t bs hsep
    have hbf1 : ∀ v, Seg.orig v ∈ refineSegs t bs → bracketFree v = true := by
      intro v hv
      rw [bracketFree_iff]
      intro c hc
      obtain ⟨u, hu, hcu⟩ := refine_orig_content t hne bs v hv c hc
      exact (bracketFree_iff u).1 (hbf u hu) c hcu
    have hph1 : ∀ t' occ, Seg.ph t' occ ∈ refineSegs t bs → t' ∉ ts := by
      intro t' occ hm hcts
      rcases refine_ph_content t hne bs t' occ hm with h1 | h1
      · exact hph t' occ h1 (List.mem_cons_of_mem _ hcts)
      · rw [h1.1] at hcts
        exact htnotts hcts
    obtain ⟨bs', he1, he2, he3, he4, he5, he6⟩ := ih hts' hnodup' (refineSegs t bs)
      hsep1 hbf1 hph1
    refine ⟨bs', ?_, he2, ?_, he4, ?_, ?_⟩
    · show textFold ts (subTerm t.term (placeholder t.id) (renderPh bs)).1 = renderPh bs'
      rw [hsub1, he1]
    · rw [he3, renderOrig_refineSegs t hne bs]
    · intro t' occ h
      rcases he5 t' occ h with h1 | h1
      · rcases refine_ph_content t hne bs t' occ h1 with h2 | h2
        · exact Or.inl h2
        · exact Or.inr ⟨by rw [h2.1]; exact List.mem_cons_self _ _,
            by rw [h2.1]; exact h2.2.1, h2.2.2⟩
      · exact Or.inr ⟨List.mem_cons_of_mem _ h1.1, h1.2.1, h1.2.2⟩
    · intro t' occ h
      rcases he6 t' occ h with h1 | h1
      · rcases refine_ph_content t hne bs t' occ h1 with h2 | h2
        · exact Or.inl h2
        · refine Or.inr ?_
          obtain ⟨heq, hlo, hocc⟩ := h2
          subst heq
          show t' ∈ matchedOf (t' :: ts) (renderPh bs)
          rw [show matchedOf (t' :: ts) (renderPh bs) =
            (if (subTerm t'.term (placeholder t'.id) (renderPh bs)).2.isEmpty then []
              else [t']) ++
              matchedOf ts (subTerm t'.term (placeholder t'.id) (renderPh bs)).1 from rfl]
          have hflagne : (subTerm t'.term (placeholder t'.id) (renderPh bs)).2 ≠ [] := by
            intro hc
            exact (hsub2.1 hc) occ h1
          rw [if_neg (by
            intro hc
            exact hflagne (List.isEmpty_iff.1 hc))]
          exact List.mem_append.2 (Or.inl (List.mem_cons_self _ _))
      · refine Or.inr ?_
        show t' ∈ matchedOf (t :: ts) (renderPh bs)
        rw [show matchedOf (t :: ts) (renderPh bs) =
          (if (subTerm t.term (placeholder t.id) (renderPh bs)).2.isEmpty then []
            else [t]) ++
            matchedOf ts (subTerm t.term (placeholder t.id) (renderPh bs)).1 from rfl]
        rw [hsub1]
        exact List.mem_append.2 (Or.inr h1)

theorem dictInsert_not_mem {α β : Type} [DecidableEq α] (k : α) (v : β)
    (m : List (α × β)) (h : k ∉ m.map Prod.fst) : dictInsert k v m = m ++ [(k, v)] := by
  induction m with
  | nil => rfl
  | cons p rest ih =>
    obtain ⟨a, b⟩ := p
    have ha : ¬a = k := by
      intro hc
      exact h (by rw [List.map_cons, hc]; exact List.mem_cons_self _ _)
    show dictInsert k v ((a, b) :: rest) = _
    rw [show dictInsert k v ((a, b) :: rest) = (a, b) :: dictInsert k v rest from by
      simp [dictInsert, ha]]
    rw [ih (fun hc => h (by rw [List.map_cons]; exact List.mem_cons_of_mem _ hc))]
    rfl

theorem preprocess_map (ts : List Term) :
    ∀ (txt : List Char) (m0 : RepMap),
      List.Pairwise (fun a b => placeholder a.id ≠ placeholder b.id) ts →
      (∀ t' ∈ ts, placeholder t'.id ∉ m0.map Prod.fst) →
      (ts.foldl preprocessStep (txt, m0)).2 =
        m0 ++ (matchedOf ts txt).map (fun t' => (placeholder t'.id, t')) := by
  induction ts with
  | nil =>
    intro txt m0 _ _
    show m0 = m0 ++ ([] : List Term).map (fun t' => (placeholder t'.id, t'))
    rw [List.map_nil, List.append_nil]
  | cons t ts ih =>
    intro txt m0 hpair hm0
    rw [List.foldl_cons]
    have hmOf : matchedOf (t :: ts) txt =
        (if (subTerm t.term (placeholder t.id) txt).2.isEmpty then [] else [t]) ++
          matchedOf ts (subTerm t.term (placeholder t.id) txt).1 := rfl
    have hstep : preprocessStep (txt, m0) t =
        ((subTerm t.term (placeholder t.id) txt).1,
          (subTerm t.term (placeholder t.id) txt).2.foldl
            (fun m' _ => dictInsert (placeholder t.id) t m') m0) := rfl
    rw [hstep]
    cases hps : (subTerm t.term (placeholder t.id) txt).2 with
    | nil =>
      show (List.foldl preprocessStep ((subTerm t.term (placeholder t.id) txt).1, m0) ts).2 =
        m0 ++ (matchedOf (t :: ts) txt).map (fun t' => (placeholder t'.id, t'))
      rw [ih (subTerm t.term (placeholder t.id) txt).1 m0
          (List.pairwise_cons.1 hpair).2
          (fun t' h' => hm0 t' (List.mem_cons_of_mem _ h')),
        hmOf, hps]
      rfl
    | cons p ps =>
      rw [foldl_dictInsert_const (placeholder t.id) t (p :: ps) m0
          (List.cons_ne_nil p ps),
        dictInsert_not_mem (placeholder t.id) t m0 (hm0 t (List.mem_cons_self _ _))]
      have hm0' : ∀ t' ∈ ts,
          placeholder t'.id ∉ (m0 ++ [(placeholder t.id, t)]).map Prod.fst := by
        intro t' h' hc
        rw [List.map_append, List.mem_append] at hc
        rcases hc with hc | hc
        · exact hm0 t' (List.mem_cons_of_mem _ h') hc
        · rw [List.map_cons, List.map_nil, List.mem_singleton] at hc
          exact ((List.pairwise_cons.1 hpair).1 t' h') hc.symm
      rw [ih (subTerm t.term (placeholder t.id) txt).1 (m0 ++ [(placeholder t.id, t)])
          (List.pairwise_cons.1 hpair).2 hm0',
        hmOf, hps, List.isEmpty_cons]
      rw [if_neg (by intro hc; cases hc)]
      rw [List.singleton_append, List.map_cons, List.append_assoc]
      rfl

theorem isPrefixOf_self_append : ∀ (x r : List Char), x.isPrefixOf (x ++ r) = true := by
  intro x
  induction x with
  | nil =>
    intro r
    simp [List.isPrefixOf]
  | cons c cs ih =>
    intro r
    show (c == c && cs.isPrefixOf (cs ++ r)) = true
    rw [ih r, beq_self_eq_true]
    rfl

theorem isPrefixOf_cons_ne {p c : Char} (ps cs : List Char) (h : p ≠ c) :
    (p :: ps).isPrefixOf (c :: cs) = false := by
  show (p == c && ps.isPrefixOf cs) = false
  rw [beq_eq_false_iff_ne.2 h]
  rfl

theorem isPrefixOf_le_length {x y : List Char} (h : x.isPrefixOf y = true) :
    x.length ≤ y.length := by
  induction x generalizing y with
  | nil => exact Nat.zero_le _
  | cons c cs ih =>
    cases y with
    | nil => cases h
    | cons d ds =>
      have h2 : (c == d && cs.isPrefixOf ds) = true := h
      rw [Bool.and_eq_true] at h2
      rw [List.length_cons, List.length_cons]
      exact Nat.succ_le_succ (ih h2.2)

theorem gttail_eq_of_isPrefixOf :
    ∀ (x y r : List Char), ('>' ∉ x) → ('>' ∉ y) →
      (x ++ ['>']).isPrefixOf (y ++ '>' :: r) = true → x = y := by
  intro x
  induction x with
  | nil =>
    intro y r hx hy h
    cases y with
    | nil => rfl
    | cons d ds =>
      exfalso
      have h2 : (('>' == d) && [].isPrefixOf (ds ++ '>' :: r)) = true := h
      rw [Bool.and_eq_true, beq_iff_eq] at h2
      exact hy (by rw [← h2.1]; exact List.mem_cons_self _ _)
  | cons c cs ih =>
    intro y r hx hy h
    cases y with
    | nil =>
      exfalso
      have h2 : ((c == '>') && (cs ++ ['>']).isPrefixOf r) = true := h
      rw [Bool.and_eq_true, beq_iff_eq] at h2
      exact hx (by rw [h2.1]; exact List.mem_cons_self _ _)
    | cons d ds =>
      have h2 : ((c == d) && (cs ++ ['>']).isPrefixOf (ds ++ '>' :: r)) = true := h
      rw [Bool.and_eq_true, beq_iff_eq] at h2
      rw [h2.1, ih ds r (fun hc => hx (List.mem_cons_of_mem _ hc))
        (fun hc => hy (List.mem_cons_of_mem _ hc)) h2.2]

theorem replaceScan_fuel (pat repl : List Char) (hpat : pat ≠ []) :
    ∀ (f1 : Nat), ∀ (f2 : Nat) (text : List Char), text.length < f1 → text.length < f2 →
      replaceScan pat repl f1 text = replaceScan pat repl f2 text := by
  intro f1
  induction f1 with
  | zero =>
    intro f2 text h1 h2
    exact absurd h1 (Nat.not_lt_zero _)
  | succ f1 ih =>
    intro f2 text h1 h2
    cases f2 with
    | zero => exact absurd h2 (Nat.not_lt_zero _)
    | succ f2 =>
      cases text with
      | nil => rfl
      | cons c cs =>
        show (if pat.isPrefixOf (c :: cs) = true then _ else _) =
          (if pat.isPrefixOf (c :: cs) = true then _ else _)
        by_cases hp : pat.isPrefixOf (c :: cs) = true
        · rw [if_pos hp, if_pos hp]
          have hlen : ((c :: cs).drop pat.length).length < f1 ∧
              ((c :: cs).drop pat.length).length < f2 := by
            rw [List.length_drop]
            have hle := isPrefixOf_le_length hp
            have hpl : 1 ≤ pat.length := by
              cases pat with
              | nil => exact absurd rfl hpat
              | cons p ps => rw [List.length_cons]; omega
            rw [List.length_cons] at h1 h2 ⊢
            omega
          rw [ih f2 _ hlen.1 hlen.2]
        · rw [if_neg hp, if_neg hp]
          have hlen : cs.length < f1 ∧ cs.length < f2 := by
            rw [List.length_cons] at h1 h2
            omega
          rw [ih f2 cs hlen.1 hlen.2]

theorem replaceScan_chunk (pat repl : List Char) (p' : List Char)
    (hpat : pat = '<' :: p') :
    ∀ (chunk : List Char), (∀ c ∈ chunk, c ≠ '<') →
      ∀ (fuel : Nat) (rest : List Char), (chunk ++ rest).length < fuel →
      replaceScan pat repl fuel (chunk ++ rest) = chunk ++ replaceScan pat repl fuel rest := by
  intro chunk
  induction chunk with
  | nil =>
    intro _ fuel rest hf
    rfl
  | cons c cs ih =>
    intro hch fuel rest hf
    cases fuel with
    | zero => exact absurd hf (Nat.not_lt_zero _)
    | succ fuel =>
      have hne : pat.isPrefixOf (c :: (cs ++ rest)) = false := by
        rw [hpat]
        exact isPrefixOf_cons_ne p' (cs ++ rest)
          (fun hc => (hch c (List.mem_cons_self _ _)) hc.symm)
      rw [List.cons_append,
        show replaceScan pat repl (fuel + 1) (c :: (cs ++ rest)) =
          if pat.isPrefixOf (c :: (cs ++ rest)) = true then
            repl ++ replaceScan pat repl fuel ((c :: (cs ++ rest)).drop pat.length)
          else c :: replaceScan pat repl fuel (cs ++ rest) from rfl,
        if_neg (by rw [hne]; intro hc; cases hc)]
      have hlen : (cs ++ rest).length < fuel := by
        rw [List.cons_append, List.length_cons] at hf
        omega
      have hrlen : rest.length < fuel := by
        rw [List.length_append] at hlen
        omega
      rw [ih (fun c' hc' => hch c' (List.mem_cons_of_mem _ hc')) fuel rest hlen,
        replaceScan_fuel pat repl (by rw [hpat]; exact List.cons_ne_nil _ _) fuel
          (fuel + 1) rest hrlen (Nat.lt_succ_of_lt hrlen)]
      rfl

theorem replaceScan_hit (pat repl : List Char) (hpat : pat ≠ []) :
    ∀ (fuel : Nat) (rest : List Char), (pat ++ rest).length < fuel →
      replaceScan pat repl fuel (pat ++ rest) = repl ++ replaceScan pat repl fuel rest := by
  intro fuel rest hf
  cases fuel with
  | zero => exact absurd hf (Nat.not_lt_zero _)
  | succ fuel =>
    cases hp : pat with
    | nil => exact absurd hp hpat
    | cons p ps =>
      subst hp
      rw [List.cons_append,
        show replaceScan (p :: ps) repl (fuel + 1) (p :: (ps ++ rest)) =
          if (p :: ps).isPrefixOf (p :: (ps ++ rest)) = true then
            repl ++ replaceScan (p :: ps) repl fuel ((p :: (ps ++ rest)).drop (p :: ps).length)
          else p :: replaceScan (p :: ps) repl fuel (ps ++ rest) from rfl,
        if_pos (by rw [← List.cons_append, isPrefixOf_self_append])]
      have hdrop : (p :: (ps ++ rest)).drop (p :: ps).length = rest := by
        rw [← List.cons_append, List.drop_left]
      rw [hdrop]
      have hrlen : rest.length < fuel := by
        rw [List.cons_append, List.length_cons, List.length_append] at hf
        omega
      rw [replaceScan_fuel (p :: ps) repl (List.cons_ne_nil _ _) fuel (fuel + 1) rest
        hrlen (Nat.lt_succ_of_lt hrlen)]

theorem placeholder_eq (i : Int) : placeholder i = '<' :: (intStr i ++ ['>']) := rfl

theorem placeholder_append_eq (i : Int) (r : List Char) :
    placeholder i ++ r = '<' :: (intStr i ++ '>' :: r) := by
  unfold placeholder
  simp [List.append_assoc]

theorem placeholder_ne_nil (i : Int) : placeholder i ≠ [] := by
  rw [placeholder_eq]
  exact List.cons_ne_nil _ _

theorem placeholder_isPrefixOf_iff (i j : Int) (r : List Char) :
    (placeholder i).isPrefixOf (placeholder j ++ r) = true ↔
      placeholder i = placeholder j := by
  rw [placeholder_eq i, placeholder_append_eq j]
  constructor
  · intro h
    have h2 : (('<' == '<') && (intStr i ++ ['>']).isPrefixOf (intStr j ++ '>' :: r)) =
        true := h
    rw [Bool.and_eq_true] at h2
    have heq : intStr i = intStr j :=
      gttail_eq_of_isPrefixOf (intStr i) (intStr j) r
        (fun hc => ((intStr_ne_bracket i '>' hc).2) rfl)
        (fun hc => ((intStr_ne_bracket j '>' hc).2) rfl) h2.2
    rw [placeholder_eq j, heq]
  · intro h
    rw [placeholder_eq j] at h
    have h1 : intStr i ++ ['>'] = intStr j ++ ['>'] := by injection h
    have h2 : intStr i = intStr j := by simpa using h1
    rw [h2, show '<' :: (intStr j ++ '>' :: r) = ('<' :: (intStr j ++ ['>'])) ++ r by
      simp [List.append_assoc]]
    exact isPrefixOf_self_append _ r

theorem replaceScan_ph_miss (i j : Int) (repl : List Char)
    (hne : placeholder j ≠ placeholder i) :
    ∀ (fuel : Nat) (rest : List Char), (placeholder j ++ rest).length < fuel →
      replaceScan (placeholder i) repl fuel (placeholder j ++ rest) =
        placeholder j ++ replaceScan (placeholder i) repl fuel rest := by
  intro fuel rest hf
  cases fuel with
  | zero => exact absurd hf (Nat.not_lt_zero _)
  | succ fuel =>
    have hp : (placeholder i).isPrefixOf (placeholder j ++ rest) = false := by
      cases hb : (placeholder i).isPrefixOf (placeholder j ++ rest) with
      | false => rfl
      | true =>
        exfalso
        have := (placeholder_isPrefixOf_iff i j rest).1 hb
        exact hne this.symm
    rw [placeholder_append_eq] at hp ⊢
    rw [show replaceScan (placeholder i) repl (fuel + 1)
          ('<' :: (intStr j ++ '>' :: rest)) =
        if (placeholder i).isPrefixOf ('<' :: (intStr j ++ '>' :: rest)) = true then
          repl ++ replaceScan (placeholder i) repl fuel
            (('<' :: (intStr j ++ '>' :: rest)).drop (placeholder i).length)
        else '<' :: replaceScan (placeholder i) repl fuel (intStr j ++ '>' :: rest)
      from rfl,
      if_neg (by rw [hp]; intro hc; cases hc)]
    have hch : intStr j ++ '>' :: rest = (intStr j ++ ['>']) ++ rest := by
      simp [List.append_assoc]
    have hlen : ((intStr j ++ ['>']) ++ rest).length < fuel := by
      rw [placeholder_append_eq, List.length_cons, hch] at hf
      omega
    have hrlen : rest.length < fuel := by
      rw [List.length_append] at hlen
      omega
    rw [hch, replaceScan_chunk (placeholder i) repl (intStr i ++ ['>']) rfl
        (intStr j ++ ['>'])
        (by
          intro c hc
          rcases List.mem_append.1 hc with h1 | h1
          · exact (intStr_ne_bracket j c h1).1
          · rw [List.mem_singleton.1 h1]
            intro hc2
            cases hc2)
        fuel rest hlen,
      replaceScan_fuel (placeholder i) repl (placeholder_ne_nil i) fuel (fuel + 1) rest
        hrlen (Nat.lt_succ_of_lt hrlen)]
    rw [placeholder_append_eq]
    simp [List.append_assoc]

theorem replaceScan_blocks (t : Term) (done : List Int) :
    ∀ (bs : List Seg),
      (∀ v, Seg.orig v ∈ bs → bracketFree v = true) →
      (∀ t' occ, Seg.ph t' occ ∈ bs → bracketFree t'.translation = true) →
      (∀ t' occ, Seg.ph t' occ ∈ bs → placeholder t'.id = placeholder t.id → t' = t) →
      ∀ (fuel : Nat), (renderMix done bs).length < fuel →
      replaceScan (placeholder t.id) t.translation fuel (renderMix done bs) =
        renderMix (t.id :: done) bs := by
  intro bs
  induction bs with
  | nil =>
    intro _ _ _ fuel hf
    cases fuel with
    | zero => exact absurd hf (Nat.not_lt_zero _)
    | succ fuel => rfl
  | cons b bs ih =>
    intro ho htr hinj fuel hf
    have ho' : ∀ v, Seg.orig v ∈ bs → bracketFree v = true :=
      fun v hv => ho v (List.mem_cons_of_mem _ hv)
    have htr' : ∀ t' occ, Seg.ph t' occ ∈ bs → bracketFree t'.translation = true :=
      fun t' occ hv => htr t' occ (List.mem_cons_of_mem _ hv)
    have hinj' : ∀ t' occ, Seg.ph t' occ ∈ bs →
        placeholder t'.id = placeholder t.id → t' = t :=
      fun t' occ hv => hinj t' occ (List.mem_cons_of_mem _ hv)
    cases b with
    | orig u =>
      rw [show renderMix done (Seg.orig u :: bs) = u ++ renderMix done bs from rfl] at hf ⊢
      have hbu := (bracketFree_iff u).1 (ho u (List.mem_cons_self _ _))
      rw [replaceScan_chunk (placeholder t.id) t.translation (intStr t.id ++ ['>']) rfl u
          (fun c hc => (hbu c hc).1) fuel (renderMix done bs) hf,
        ih ho' htr' hinj' fuel
          (by rw [List.length_append] at hf; omega)]
      rfl
    | ph t' occ =>
      by_cases hd : t'.id ∈ done
      · rw [show renderMix done (Seg.ph t' occ :: bs) =
            (if t'.id ∈ done then t'.translation else placeholder t'.id) ++
              renderMix done bs from rfl, if_pos hd] at hf ⊢
        have hbtr := (bracketFree_iff t'.translation).1
          (htr t' occ (List.mem_cons_self _ _))
        rw [replaceScan_chunk (placeholder t.id) t.translation (intStr t.id ++ ['>']) rfl
            t'.translation (fun c hc => (hbtr c hc).1) fuel (renderMix done bs) hf,
          ih ho' htr' hinj' fuel (by rw [List.length_append] at hf; omega)]
        rw [show renderMix (t.id :: done) (Seg.ph t' occ :: bs) =
            (if t'.id ∈ t.id :: done then t'.translation else placeholder t'.id) ++
              renderMix (t.id :: done) bs from rfl,
          if_pos (List.mem_cons_of_mem _ hd)]
      · by_cases hpe : placeholder t'.id = placeholder t.id
        · have ht' : t' = t := hinj t' occ (List.mem_cons_self _ _) hpe
          subst ht'
          rw [show renderMix done (Seg.ph t' occ :: bs) =
              (if t'.id ∈ done then t'.translation else placeholder t'.id) ++
                renderMix done bs from rfl, if_neg hd] at hf ⊢
          rw [replaceScan_hit (placeholder t'.id) t'.translation (placeholder_ne_nil _)
              fuel (renderMix done bs) hf,
            ih ho' htr' hinj' fuel
              (by rw [List.length_append] at hf
                  have := List.length_pos.2 (placeholder_ne_nil t'.id)
                  omega)]
          rw [show renderMix (t'.id :: done) (Seg.ph t' occ :: bs) =
              (if t'.id ∈ t'.id :: done then t'.translation else placeholder t'.id) ++
                renderMix (t'.id :: done) bs from rfl,
            if_pos (List.mem_cons_self _ _)]
        · rw [show renderMix done (Seg.ph t' occ :: bs) =
              (if t'.id ∈ done then t'.translation else placeholder t'.id) ++
                renderMix done bs from rfl, if_neg hd] at hf ⊢
          rw [replaceScan_ph_miss t.id t'.id t.translation hpe fuel (renderMix done bs) hf,
            ih ho' htr' hinj' fuel
              (by rw [List.length_append] at hf
                  have := List.length_pos.2 (placeholder_ne_nil t'.id)
                  omega)]
          rw [show renderMix (t.id :: done) (Seg.ph t' occ :: bs) =
              (if t'.id ∈ t.id :: done then t'.translation else placeholder t'.id) ++
                renderMix (t.id :: done) bs from rfl,
            if_neg (by
              intro hc
              rcases List.mem_cons.1 hc with h1 | h1
              · exact hpe (by rw [h1])
              · exact hd h1)]

theorem renderMix_nil_done (bs : List Seg) : renderMix [] bs = renderPh bs := by
  induction bs with
  | nil => rfl
  | cons b bs ih =>
    cases b with
    | orig u =>
      show u ++ renderMix [] bs = u ++ renderPh bs
      rw [ih]
    | ph t occ =>
      show (if t.id ∈ ([] : List Int) then t.translation else placeholder t.id) ++
          renderMix [] bs = placeholder t.id ++ renderPh bs
      rw [if_neg (List.not_mem_nil _), ih]

theorem renderMix_all_done (done : List Int) (bs : List Seg)
    (h : ∀ t occ, Seg.ph t occ ∈ bs → t.id ∈ done) :
    renderMix done bs = renderTr bs := by
  induction bs with
  | nil => rfl
  | cons b bs ih =>
    have h' : ∀ t occ, Seg.ph t occ ∈ bs → t.id ∈ done :=
      fun t occ hm => h t occ (List.mem_cons_of_mem _ hm)
    cases b with
    | orig u =>
      show u ++ renderMix done bs = u ++ renderTr bs
      rw [ih h']
    | ph t occ =>
      show (if t.id ∈ done then t.translation else placeholder t.id) ++
          renderMix done bs = t.translation ++ renderTr bs
      rw [if_pos (h t occ (List.mem_cons_self _ _)), ih h']

theorem replaceAll_placeholder (i : Int) (repl text : List Char) :
    replaceAll (placeholder i) repl text =
      replaceScan (placeholder i) repl (text.length + 1) text := rfl

theorem replaceAll_blocks (t : Term) (done : List Int) (bs : List Seg)
    (ho : ∀ v, Seg.orig v ∈ bs → bracketFree v = true)
    (htr : ∀ t' occ, Seg.ph t' occ ∈ bs → bracketFree t'.translation = true)
    (hinj : ∀ t' occ, Seg.ph t' occ ∈ bs → placeholder t'.id = placeholder t.id → t' = t) :
    replaceAll (placeholder t.id) t.translation (renderMix done bs) =
      renderMix (t.id :: done) bs := by
  rw [replaceAll_placeholder]
  exact replaceScan_blocks t done bs ho htr hinj _ (Nat.lt_succ_self _)

theorem postprocess_blocks (bs : List Seg)
    (ho : ∀ v, Seg.orig v ∈ bs → bracketFree v = true)
    (htr : ∀ t' occ, Seg.ph t' occ ∈ bs → bracketFree t'.translation = true) :
    ∀ (entries : List (List Char × Term)) (done : List Int),
      (∀ e ∈ entries, e.1 = placeholder e.2.id ∧
        ∀ t' occ, Seg.ph t' occ ∈ bs →
          placeholder t'.id = placeholder e.2.id → t' = e.2) →
      List.foldl (fun txt p => replaceAll p.1 p.2.translation txt)
          (renderMix done bs) entries =
        renderMix ((entries.map (fun e => e.2.id)).reverse ++ done) bs := by
  intro entries
  induction entries with
  | nil =>
    intro done _
    simp
  | cons e es ih =>
    intro done hents
    rw [List.foldl_cons]
    obtain ⟨he1, hinj⟩ := hents e (List.mem_cons_self _ _)
    rw [he1, replaceAll_blocks e.2 done bs ho htr hinj,
      ih (e.2.id :: done) (fun e' he' => hents e' (List.mem_cons_of_mem _ he'))]
    simp [List.append_assoc]

theorem matchedOf_subset (ts : List Term) :
    ∀ (txt : List Char) (t' : Term), t' ∈ matchedOf ts txt → t' ∈ ts := by
  induction ts with
  | nil =>
    intro txt t' h
    cases h
  | cons t ts ih =>
    intro txt t' h
    rcases List.mem_append.1 h with h1 | h1
    · by_cases hc : (subTerm t.term (placeholder t.id) txt).2.isEmpty = true
      · rw [if_pos hc] at h1
        cases h1
      · rw [if_neg hc] at h1
        rw [List.mem_singleton.1 h1]
        exact List.mem_cons_self _ _
    · exact List.mem_cons_of_mem _ (ih _ t' h1)

theorem pairwise_placeholder_inj {ts : List Term}
    (h : List.Pairwise (fun a b => placeholder a.id ≠ placeholder b.id) ts) :
    ∀ a ∈ ts, ∀ b ∈ ts, placeholder a.id = placeholder b.id → a = b := by
  induction ts with
  | nil =>
    intro a ha
    cases ha
  | cons t ts ih =>
    rw [List.pairwise_cons] at h
    intro a ha b hb heq
    rcases List.mem_cons.1 ha with h1 | h1 <;> rcases List.mem_cons.1 hb with h2 | h2
    · rw [h1, h2]
    · subst h1
      exact absurd heq (h.1 b h2)
    · subst h2
      exact absurd heq.symm (h.1 a h1)
    · exact ih h.2 a h1 b h2 heq

theorem renderPh_single_orig (u : List Char) : renderPh [Seg.orig u] = u := by
  show u ++ renderPh [] = u
  rw [show renderPh [] = [] from rfl, List.append_nil]

theorem renderOrig_single_orig (u : List Char) : renderOrig [Seg.orig u] = u := by
  show u ++ renderOrig [] = u
  rw [show renderOrig [] = [] from rfl, List.append_nil]

theorem roundtrip_general (tlist : List Term) (text out : List Char) (m : RepMap)
    (htext : bracketFree text = true)
    (hterms : ∀ t' ∈ tlist, t'.term ≠ [] ∧ bracketFree t'.term = true ∧
      hasNonDigit t'.term = true ∧ bracketFree t'.translation = true)
    (hpair : List.Pairwise (fun a b => placeholder a.id ≠ placeholder b.id) tlist)
    (hok : (sortTermsDesc tlist).foldl preprocessStep (text, []) = (out, m)) :
    ∃ bs : List Seg,
      renderOrig bs = text ∧
      renderPh bs = out ∧
      postprocess_text out m = renderTr bs ∧
      (∀ t' occ, Seg.ph t' occ ∈ bs →
        t' ∈ tlist ∧ lowerStr occ = lowerStr t'.term ∧ occ ≠ []) := by
  have hperm : (sortTermsDesc tlist).Perm tlist := List.perm_insertionSort _ _
  have hmem : ∀ t' : Term, t' ∈ sortTermsDesc tlist ↔ t' ∈ tlist :=
    fun t' => hperm.mem_iff
  have hpair' : List.Pairwise (fun a b => placeholder a.id ≠ placeholder b.id)
      (sortTermsDesc tlist) := by
    refine (List.Perm.pairwise_iff ?_ hperm).2 hpair
    intro a b hab hc
    exact hab hc.symm
  have hnodup : (sortTermsDesc tlist).Nodup :=
    hpair'.imp (fun hab heq => hab (by rw [heq]))
  have hts : ∀ t' ∈ sortTermsDesc tlist, t'.term ≠ [] ∧ bracketFree t'.term = true ∧
      hasNonDigit t'.term = true := by
    intro t' ht'
    obtain ⟨a, b, c, _⟩ := hterms t' ((hmem t').1 ht')
    exact ⟨a, b, c⟩
  have hsep0 : Sep [Seg.orig text] := Sep.orig_nil text
  have hbf0 : ∀ v, Seg.orig v ∈ [Seg.orig text] → bracketFree v = true := by
    intro v hv
    have h1 := List.mem_singleton.1 hv
    injection h1 with h2
    rw [h2]
    exact htext
  have hph0 : ∀ t' occ, Seg.ph t' occ ∈ [Seg.orig text] →
      t' ∉ sortTermsDesc tlist := by
    intro t' occ hm2
    exact absurd (List.mem_singleton.1 hm2) (by intro hc; cases hc)
  obtain ⟨bs', hrph, hsep', hrorig, hbf', hphc, hphm⟩ :=
    textFold_blocks (sortTermsDesc tlist) hts hnodup [Seg.orig text] hsep0 hbf0 hph0
  rw [renderPh_single_orig] at hrph hphm
  rw [renderOrig_single_orig] at hrorig
  have hout : renderPh bs' = out := by
    rw [← hrph, ← foldl_preprocessStep_fst (sortTermsDesc tlist) text [], hok]
  have hm2 : m = (matchedOf (sortTermsDesc tlist) text).map
      (fun t' => (placeholder t'.id, t')) := by
    have hp := preprocess_map (sortTermsDesc tlist) text [] hpair'
      (by intro t' ht' hc; simp at hc)
    rw [hok] at hp
    simpa using hp
  have hphc' : ∀ t' occ, Seg.ph t' occ ∈ bs' →
      t' ∈ tlist ∧ lowerStr occ = lowerStr t'.term ∧ occ ≠ [] := by
    intro t' occ hmem'
    rcases hphc t' occ hmem' with h1 | h1
    · exact absurd (List.mem_singleton.1 h1) (by intro hc; cases hc)
    · exact ⟨(hmem t').1 h1.1, h1.2.1, h1.2.2⟩
  have hphm' : ∀ t' occ, Seg.ph t' occ ∈ bs' →
      t' ∈ matchedOf (sortTermsDesc tlist) text := by
    intro t' occ hmem'
    rcases hphm t' occ hmem' with h1 | h1
    · exact absurd (List.mem_singleton.1 h1) (by intro hc; cases hc)
    · exact h1
  have htr' : ∀ t' occ, Seg.ph t' occ ∈ bs' → bracketFree t'.translation = true := by
    intro t' occ hmem'
    exact (hterms t' (hphc' t' occ hmem').1).2.2.2
  have hglob := pairwise_placeholder_inj hpair'
  have hpost : postprocess_text out m = renderTr bs' := by
    rw [← hout, hm2]
    show ((matchedOf (sortTermsDesc tlist) text).map
        (fun t' => (placeholder t'.id, t'))).foldl
        (fun txt p => replaceAll p.1 p.2.translation txt) (renderPh bs') = renderTr bs'
    have hents : ∀ e ∈ (matchedOf (sortTermsDesc tlist) text).map
        (fun t' => (placeholder t'.id, t')),
        e.1 = placeholder e.2.id ∧
          ∀ t' occ, Seg.ph t' occ ∈ bs' →
            placeholder t'.id = placeholder e.2.id → t' = e.2 := by
      intro e he
      obtain ⟨w, hw, hwe⟩ := List.mem_map.1 he
      subst hwe
      refine ⟨rfl, ?_⟩
      intro t' occ hmem' hpe
      have h1 : t' ∈ sortTermsDesc tlist := (hmem t').2 (hphc' t' occ hmem').1
      have h2 : w ∈ sortTermsDesc tlist := matchedOf_subset _ _ _ hw
      exact hglob t' h1 w h2 hpe
    rw [← renderMix_nil_done bs', postprocess_blocks bs' hbf' htr' _ [] hents]
    apply renderMix_all_done
    intro t0 occ hmem'
    have hmt := hphm' t0 occ hmem'
    rw [List.append_nil, List.mem_reverse]
    exact List.mem_map.2 ⟨(placeholder t0.id, t0), List.mem_map.2 ⟨t0, hmt, rfl⟩, rfl⟩
  exact ⟨bs', hrorig, hout, hpost, hphc'⟩

/-- C1 (amended): provided the input text contains no angle-bracket
characters, every resolved term's text is non-empty, bracket-free and not
purely numeric, every translation is bracket-free, and the resolved terms
carry pairwise distinct placeholders, the round trip is faithful: the
input decomposes into segments whose originals concatenate to the input
text, whose placeholder rendering is the returned placeholder text, and
postprocessing that text with the returned map yields exactly the text in
which every matched occurrence (case-insensitively equal to its term's
text) is replaced by that term's translation and every other character is
unchanged.  Concretely, the abattoir/acreage scenario round-trips to
"The X and Y are important.". -/
theorem c1_amended_roundtrip (mapping : List (String × String)) (s : Store)
    (text : List Char) (domain language : String) (out : List Char) (m : RepMap)
    (htext : bracketFree text = true)
    (hterms : ∀ t' ∈ (get_terms_for_domain_lang mapping s domain language).map
        (fun p => p.2),
      t'.term ≠ [] ∧ bracketFree t'.term = true ∧ hasNonDigit t'.term = true ∧
        bracketFree t'.translation = true)
    (hpair : List.Pairwise (fun a b => placeholder a.id ≠ placeholder b.id)
      ((get_terms_for_domain_lang mapping s domain language).map (fun p => p.2)))
    (h : preprocess_text mapping s text domain language = .ok (out, m)) :
    (∃ bs : List Seg,
      renderOrig bs = text ∧
      renderPh bs = out ∧
      postprocess_text out m = renderTr bs ∧
      (∀ t' occ, Seg.ph t' occ ∈ bs →
        t' ∈ (get_terms_for_domain_lang mapping s domain language).map
          (fun p => p.2) ∧
        lowerStr occ = lowerStr t'.term ∧ occ ≠ [])) ∧
    (preprocess_text mappingTwi storeScenario
        "The abattoir and acreage are important.".data "test" "twi" =
      .ok ("The <1> and <2> are important.".data,
        [("<1>".data, termAbattoir), ("<2>".data, termAcreage)]) ∧
     postprocess_text "The <1> and <2> are important.".data
        [("<1>".data, termAbattoir), ("<2>".data, termAcreage)] =
      "The X and Y are important.".data) := by
  refine ⟨?_, by decide, by decide⟩
  by_cases hempty : (get_terms_for_domain_lang mapping s domain language).isEmpty = true
  · exfalso
    unfold preprocess_text at h
    rw [if_pos hempty] at h
    by_cases hdom : domain ∈ getDomains s
    · rw [if_pos hdom] at h
      cases h
    · rw [if_neg hdom] at h
      cases h
  · unfold preprocess_text at h
    rw [if_neg hempty] at h
    have hok : (sortTermsDesc ((get_terms_for_domain_lang mapping s domain
        language).map (fun p => p.2))).foldl preprocessStep (text, []) = (out, m) := by
      injection h
    exact roundtrip_general _ text out m htext hterms hpair hok

/-- Witness for C1 amended at the scenario store and scenario input. -/
theorem c1_amended_roundtrip_witness :
    bracketFree "The abattoir and acreage are important.".data = true ∧
    (∃ bs : List Seg,
      renderOrig bs = "The abattoir and acreage are important.".data ∧
      renderPh bs = "The <1> and <2> are important.".data ∧
      postprocess_text "The <1> and <2> are important.".data
        [("<1>".data, termAbattoir), ("<2>".data, termAcreage)] = renderTr bs ∧
      (∀ t' occ, Seg.ph t' occ ∈ bs →
        t' ∈ (get_terms_for_domain_lang mappingTwi storeScenario "test" "twi").map
          (fun p => p.2) ∧
        lowerStr occ = lowerStr t'.term ∧ occ ≠ [])) :=
  ⟨by decide,
   (c1_amended_roundtrip mappingTwi storeScenario
      "The abattoir and acreage are important.".data "test" "twi"
      "The <1> and <2> are important.".data
      [("<1>".data, termAbattoir), ("<2>".data, termAcreage)]
      (by decide) (by decide) (by decide) (by decide)).1⟩

end TcTranslate
